import Mathlib

/-!
Verification of the tree-materialization core of `cursor_dev_template`
(`src/index.js`): the recursive directory copy `copyRecursive` and the
command-line entry point.

The filesystem is embedded shallowly: a path is a list of components, a
filesystem is a finite association list from paths to nodes (directories or
files with byte content), and the JavaScript filesystem primitives used by the
source (`existsSync`, `mkdirSync` with `recursive: true`, `readdirSync`,
`statSync`, `copyFileSync`) are translated into executable Lean functions on
that state.  The unbounded recursion of `copyRecursive` is made total with an
explicit fuel argument; running out of fuel is a distinguished error
(`FsErr.fuelOut`), standing for the non-termination / stack exhaustion the
source exhibits on the corresponding inputs.  Directory enumeration order is
platform-defined in the source, so the traversal is parameterized by an
enumeration function `enum`; `ValidEnum` says the function returns exactly the
children of a directory, without duplicates, in some order.
-/

namespace CopyTree

/-- A filesystem path, as a list of name components (the result of splitting a
path string on separators).  The root is the empty list. -/
abbrev Path := List String

/-- `pfx p q` means path `p` is a (not necessarily strict) ancestor-or-self of
`q`: `p` is a list prefix of `q`. -/
def pfx (p q : Path) : Prop := ∃ t, p ++ t = q

theorem pfx_refl (p : Path) : pfx p p := ⟨[], by simp⟩

theorem pfx_trans {p q r : Path} (h₁ : pfx p q) (h₂ : pfx q r) : pfx p r := by
  obtain ⟨t₁, rfl⟩ := h₁
  obtain ⟨t₂, rfl⟩ := h₂
  exact ⟨t₁ ++ t₂, by simp⟩

theorem pfx_append (p t : Path) : pfx p (p ++ t) := ⟨t, rfl⟩

theorem pfx_length_le {p q : Path} (h : pfx p q) : p.length ≤ q.length := by
  obtain ⟨t, rfl⟩ := h
  simp

theorem pfx_antisymm {p q : Path} (h₁ : pfx p q) (h₂ : pfx q p) : p = q := by
  have l₂ := pfx_length_le h₂
  obtain ⟨t, rfl⟩ := h₁
  simp only [List.length_append] at l₂
  have ht : t = [] := List.eq_nil_of_length_eq_zero (by omega)
  simp [ht]

theorem pfx_of_pfx_append {p q : Path} {t : Path} (h : pfx (p ++ t) q) : pfx p q := by
  obtain ⟨s, rfl⟩ := h
  exact ⟨t ++ s, by simp⟩

/-- A prefix determines the front of the longer list: if `p ++ t = q ++ s` and
`p` is no longer than `q` then `p` is a prefix of `q`. -/
theorem pfx_of_append_eq : ∀ {p q t s : Path}, p ++ t = q ++ s →
    p.length ≤ q.length → pfx p q := by
  intro p
  induction p with
  | nil => exact fun _ _ => ⟨_, rfl⟩
  | cons a p ih =>
    intro q t s h hl
    cases q with
    | nil => simp at hl
    | cons b q =>
      simp only [List.cons_append, List.cons.injEq] at h
      obtain ⟨rfl, h2⟩ := h
      obtain ⟨u, hu⟩ := ih h2 (by simpa using hl)
      exact ⟨u, by simp only [List.cons_append, hu]⟩

/-- Two prefixes of the same list are comparable. -/
theorem pfx_comparable {p q r : Path} (h₁ : pfx p r) (h₂ : pfx q r) :
    pfx p q ∨ pfx q p := by
  obtain ⟨t₁, rfl⟩ := h₁
  obtain ⟨t₂, h⟩ := h₂
  rcases Nat.le_total p.length q.length with hl | hl
  · exact Or.inl (pfx_of_append_eq h.symm hl)
  · exact Or.inr (pfx_of_append_eq h hl)

theorem pfx_nil (q : Path) : pfx [] q := ⟨q, rfl⟩

theorem pfx_drop {p q : Path} (h : pfx p q) : p ++ q.drop p.length = q := by
  obtain ⟨t, rfl⟩ := h
  simp

instance (p q : Path) : Decidable (pfx p q) := by
  unfold pfx
  induction p generalizing q with
  | nil => exact isTrue ⟨q, rfl⟩
  | cons a p ih =>
    cases q with
    | nil => exact isFalse (by rintro ⟨t, h⟩; simp at h)
    | cons b q =>
      by_cases hab : a = b
      · subst hab
        cases ih q with
        | isTrue h => exact isTrue (by obtain ⟨t, rfl⟩ := h; exact ⟨t, rfl⟩)
        | isFalse h =>
          refine isFalse ?_
          rintro ⟨t, ht⟩
          simp only [List.cons_append, List.cons.injEq, true_and] at ht
          exact h ⟨t, ht⟩
      · refine isFalse ?_
        rintro ⟨t, ht⟩
        simp only [List.cons_append, List.cons.injEq] at ht
        exact hab ht.1

/-- `Incomp p q`: neither path is an ancestor-or-self of the other, so the
subtrees rooted at `p` and `q` are disjoint. -/
def Incomp (p q : Path) : Prop := ¬ pfx p q ∧ ¬ pfx q p

instance (p q : Path) : Decidable (Incomp p q) := by unfold Incomp; infer_instance

theorem incomp_extend {p q : Path} (h : Incomp p q) (s : String) :
    Incomp (p ++ [s]) (q ++ [s]) := by
  constructor
  · intro hp
    obtain ⟨t, ht⟩ := hp
    rcases Nat.le_total p.length q.length with hl | hl
    · exact h.1 (pfx_of_append_eq (by simpa using ht) hl)
    · have hq : pfx q p := pfx_of_append_eq (by simpa using ht.symm) hl
      exact h.2 hq
  · intro hp
    obtain ⟨t, ht⟩ := hp
    rcases Nat.le_total q.length p.length with hl | hl
    · exact h.2 (pfx_of_append_eq (by simpa using ht) hl)
    · have hq : pfx p q := pfx_of_append_eq (by simpa using ht.symm) hl
      exact h.1 hq

/-- Children of incomparable paths cut the other subtree: if `src` and `dest`
are incomparable then no path of the `src` subtree lies in the `dest` subtree
and vice versa. -/
theorem incomp_subtree {src dest : Path} (h : Incomp src dest) (r : Path) :
    ¬ pfx dest (src ++ r) ∧ ¬ pfx (src ++ r) dest := by
  constructor
  · intro hd
    rcases pfx_comparable (pfx_append src r) hd with hc | hc
    · exact h.1 hc
    · exact h.2 hc
  · intro hd
    exact h.1 (pfx_of_pfx_append hd)

/-- The kinds of filesystem node the source distinguishes (`stat.isDirectory()`
true or false): a directory, or a regular file with byte content. -/
inductive Node where
  | dir : Node
  | file : List Nat → Node
  deriving DecidableEq, Repr

/-- A filesystem state: a finite association list from paths to nodes.  Lookup
takes the first matching entry, so later entries never shadow earlier ones. -/
abbrev FS := List (Path × Node)

def FS.find (fs : FS) (p : Path) : Option Node :=
  (fs.find? (fun pr => decide (pr.1 = p))).map (·.2)

/-- Write node `n` at path `p`, replacing any previous entry for `p`.  This is
the single primitive mutation of the model. -/
def FS.set (fs : FS) (p : Path) (n : Node) : FS :=
  fs.filter (fun pr => decide (pr.1 ≠ p)) ++ [(p, n)]

theorem FS.find_eq_none (fs : FS) (p : Path)
    (h : ∀ pr ∈ fs, pr.1 ≠ p) : FS.find fs p = none := by
  unfold FS.find
  rw [List.find?_eq_none.mpr]
  · rfl
  · intro pr hpr
    simpa using h pr hpr

theorem FS.find_mem {fs : FS} {p : Path} {n : Node}
    (h : FS.find fs p = some n) : ∃ pr ∈ fs, pr.1 = p ∧ pr.2 = n := by
  unfold FS.find at h
  cases hf : fs.find? (fun pr => decide (pr.1 = p)) with
  | none => rw [hf] at h; simp at h
  | some pr =>
    rw [hf] at h
    simp at h
    refine ⟨pr, List.mem_of_find?_eq_some hf, ?_, h⟩
    have := List.find?_some hf
    simpa using this

theorem FS.find_isSome_of_mem {fs : FS} {pr : Path × Node} (h : pr ∈ fs) :
    (FS.find fs pr.1).isSome := by
  unfold FS.find
  cases hf : fs.find? (fun x => decide (x.1 = pr.1)) with
  | none =>
    have := List.find?_eq_none.mp hf pr h
    simp at this
  | some x => simp

theorem FS.find_set (fs : FS) (p : Path) (n : Node) (q : Path) :
    FS.find (FS.set fs p n) q = if q = p then some n else FS.find fs q := by
  unfold FS.set FS.find
  induction fs with
  | nil =>
    by_cases h : q = p
    · subst h; simp [List.find?]
    · simp only [List.filter_nil, List.nil_append, List.find?]
      have : decide ((p, n).1 = q) = false := by
        simp only [decide_eq_false_iff_not]
        exact fun hc => h hc.symm
      rw [this]
      simp [if_neg h]
  | cons hd tl ih =>
    by_cases hp : hd.1 = p
    · have : decide (hd.1 ≠ p) = false := by simp [hp]
      rw [List.filter_cons_of_neg (by simp [this])]
      by_cases h : q = p
      · rw [ih]; simp [h]
      · have hdq : decide (hd.1 = q) = false := by
          simp only [decide_eq_false_iff_not, hp]
          exact fun hc => h hc.symm
        rw [ih, if_neg h, if_neg h, List.find?_cons, hdq]
    · rw [List.filter_cons_of_pos (by simp [hp])]
      by_cases hq : hd.1 = q
      · have hdq : decide (hd.1 = q) = true := by simp [hq]
        rw [List.cons_append, List.find?_cons, hdq, List.find?_cons, hdq]
        have h : ¬ q = p := fun hc => hp (hq.trans hc)
        simp [if_neg h]
      · have hdq : decide (hd.1 = q) = false := by simp [hq]
        rw [List.cons_append, List.find?_cons, hdq, List.find?_cons, hdq]
        exact ih

/-- Extensional equality of filesystem states. -/
def FS.equiv (a b : FS) : Prop := ∀ p, FS.find a p = FS.find b p

theorem FS.equiv_refl (a : FS) : FS.equiv a a := fun _ => rfl

theorem FS.equiv_symm {a b : FS} (h : FS.equiv a b) : FS.equiv b a :=
  fun p => (h p).symm

theorem FS.equiv_trans {a b c : FS} (h₁ : FS.equiv a b) (h₂ : FS.equiv b c) :
    FS.equiv a c := fun p => (h₁ p).trans (h₂ p)

/-- Well-formedness of a filesystem state, as on a real filesystem: no entry at
the root path itself, and every proper ancestor of a present path is a present
directory.  Stated over the entries of the association list so that it is
decidable on concrete states. -/
def WF (fs : FS) : Prop :=
  ∀ pr ∈ fs, pr.1 ≠ [] ∧
    ∀ i, i < pr.1.length → 0 < i → FS.find fs (pr.1.take i) = some Node.dir

instance (fs : FS) : Decidable (WF fs) := by
  unfold WF
  infer_instance

/-- The usable form of well-formedness: ancestors of any present path are
present directories. -/
theorem WF.find {fs : FS} (hwf : WF fs) {p : Path} {n : Node}
    (h : FS.find fs p = some n) :
    p ≠ [] ∧ ∀ i, 0 < i → i < p.length → FS.find fs (p.take i) = some Node.dir := by
  obtain ⟨pr, hmem, hkey, -⟩ := FS.find_mem h
  have := hwf pr hmem
  rw [hkey] at this
  exact ⟨this.1, fun i h0 hlt => this.2 i hlt h0⟩

theorem WF.find_nil {fs : FS} (hwf : WF fs) : FS.find fs [] = none := by
  cases h : FS.find fs [] with
  | none => rfl
  | some n => exact absurd rfl (hwf.find h).1

/-- Under a well-formed state, an ancestor of a present path is a present
directory (prefix form). -/
theorem WF.pfx_dir {fs : FS} (hwf : WF fs) {p q : Path} {n : Node}
    (h : FS.find fs p = some n) (hq : pfx q p) (hne : q ≠ p) (hnil : q ≠ []) :
    FS.find fs q = some Node.dir := by
  obtain ⟨t, rfl⟩ := hq
  have hlt : q.length < (q ++ t).length := by
    cases t with
    | nil => simp at hne
    | cons a t => simp
  have := (hwf.find h).2 q.length (by
    cases q with
    | nil => simp at hnil
    | cons b q => simp) hlt
  simpa using this

/-- Nothing is present strictly below a file in a well-formed state. -/
theorem WF.below_file {fs : FS} (hwf : WF fs) {p q : Path} {c : List Nat}
    (h : FS.find fs p = some (Node.file c)) (hq : pfx p q) (hne : p ≠ q) :
    FS.find fs q = none := by
  cases hfq : FS.find fs q with
  | none => rfl
  | some n =>
    have hnil : p ≠ [] := (hwf.find h).1
    have := hwf.pfx_dir hfq hq hne hnil
    rw [h] at this
    simp at this

/-- The error kinds of the modelled filesystem primitives: missing path
(`ENOENT`), directory where a file operation was attempted (`EISDIR`), file
where a directory was required (`ENOTDIR`), and exhaustion of the recursion
fuel, which stands for the unbounded recursion the source would perform on the
same input. -/
inductive FsErr where
  | enoent : FsErr
  | eisdir : FsErr
  | enotdir : FsErr
  | fuelOut : FsErr
  deriving DecidableEq, Repr

/-- Result of a filesystem-mutating operation: success with the new state, or
an uncaught error together with the state at the moment of failure.  The model
performs no rollback, mirroring the source, which catches nothing. -/
inductive Res where
  | ok : FS → Res
  | err : FsErr → FS → Res
  deriving DecidableEq, Repr

def Res.state : Res → FS
  | .ok fs => fs
  | .err _ fs => fs

def Res.bind (r : Res) (f : FS → Res) : Res :=
  match r with
  | .ok fs => f fs
  | .err e fs => .err e fs

theorem Res.bind_ok (fs : FS) (f : FS → Res) : Res.bind (.ok fs) f = f fs := rfl

theorem Res.bind_err (e : FsErr) (fs : FS) (f : FS → Res) :
    Res.bind (.err e fs) f = .err e fs := rfl

theorem Res.ok_of_bind_ok {r : Res} {f : FS → Res} {fs' : FS}
    (h : Res.bind r f = .ok fs') : ∃ g, r = .ok g ∧ f g = .ok fs' := by
  cases r with
  | ok g => exact ⟨g, rfl, h⟩
  | err e g => simp [Res.bind] at h

/-- `mkdirSync(dest, { recursive: true })`, first `i` components: walk the
ancestors of `dest` from the root down, creating each missing one as a
directory; a regular file occupying one of them is an `ENOTDIR` failure, an
already existing directory is silently accepted. -/
def mkdirAux (fs : FS) (dest : Path) : Nat → Res
  | 0 => .ok fs
  | i + 1 =>
    Res.bind (mkdirAux fs dest i) fun g =>
      match FS.find g (dest.take (i + 1)) with
      | none => .ok (FS.set g (dest.take (i + 1)) Node.dir)
      | some Node.dir => .ok g
      | some (Node.file _) => .err FsErr.enotdir g

/-- `fs.mkdirSync(dest, { recursive: true })` (src/index.js line 8). -/
def mkdirRec (fs : FS) (dest : Path) : Res := mkdirAux fs dest dest.length

/-- `fs.copyFileSync(srcFile, destFile)` (src/index.js line 17): read the full
byte content of the source file and write it to the destination, creating or
overwriting it.  Fails if the source is missing or a directory, if the
destination is an existing directory, or if the destination's parent is not a
directory. -/
def copyFile (fs : FS) (s d : Path) : Res :=
  match FS.find fs s with
  | none => .err FsErr.enoent fs
  | some Node.dir => .err FsErr.eisdir fs
  | some (Node.file c) =>
    if FS.find fs d = some Node.dir then .err FsErr.eisdir fs
    else if d.dropLast = [] ∨ FS.find fs d.dropLast = some Node.dir then
      .ok (FS.set fs d (Node.file c))
    else .err FsErr.enotdir fs

/-- One iteration of the `for` loop of `copyRecursive` (src/index.js lines
11-18): `statSync` the entry (`ENOENT` if it vanished), recurse into
directories, copy the bytes of anything else.  `recurse` is the recursive
call, supplied by `copyRecursive` with the remaining fuel. -/
def copyEntry (recurse : Path → Path → FS → Res) (src dest : Path)
    (name : String) (fs : FS) : Res :=
  match FS.find fs (src ++ [name]) with
  | none => .err FsErr.enoent fs
  | some Node.dir => recurse (src ++ [name]) (dest ++ [name]) fs
  | some (Node.file _) => copyFile fs (src ++ [name]) (dest ++ [name])

/-- The `for` loop of `copyRecursive` over the enumerated entry names: process
them left to right, aborting on the first error (the source catches nothing,
so an exception ends the loop). -/
def copyEntries (recurse : Path → Path → FS → Res) (src dest : Path) :
    List String → FS → Res
  | [], fs => .ok fs
  | name :: rest, fs =>
    Res.bind (copyEntry recurse src dest name fs) (copyEntries recurse src dest rest)

/-- `copyRecursive(src, dest)` (src/index.js lines 6-20): if the destination
does not exist (`existsSync` false), create it with a recursive `mkdirSync`;
then enumerate the entries of `src` (`readdirSync`, which fails with `ENOENT`
unless `src` is a present directory) and process each one.  `enum` supplies
the platform-defined enumeration order; `fuel` bounds the recursion depth. -/
def copyRecursive (enum : FS → Path → List String) : Nat → Path → Path → FS → Res
  | 0, _, _, fs => .err FsErr.fuelOut fs
  | fuel + 1, src, dest, fs =>
    Res.bind (if FS.find fs dest = none then mkdirRec fs dest else .ok fs) fun g =>
      match FS.find g src with
      | some Node.dir =>
        copyEntries (fun s d h => copyRecursive enum fuel s d h) src dest (enum g src) g
      | _ => .err FsErr.enoent g

/-- The canonical `readdirSync`: the immediate child names of `p`, extracted
from the entry list in representation order, deduplicated. -/
def readdir (fs : FS) (p : Path) : List String :=
  (fs.filterMap fun pr =>
    if pr.1.length = p.length + 1 ∧ pfx p pr.1 then pr.1.getLast? else none).dedup

/-- The source asserts no ordering dependency on `readdirSync`'s
platform-defined order, so the traversal is parameterized by an enumeration
function.  A valid enumeration of a directory lists exactly its present
immediate children, each once, in an arbitrary order. -/
def ValidEnum (enum : FS → Path → List String) : Prop :=
  ∀ fs p, (enum fs p).Nodup ∧ ∀ s, s ∈ enum fs p ↔ (FS.find fs (p ++ [s])).isSome

theorem readdir_valid : ValidEnum readdir := by
  intro fs p
  constructor
  · exact List.nodup_dedup _
  · intro s
    unfold readdir
    rw [List.mem_dedup, List.mem_filterMap]
    constructor
    · rintro ⟨pr, hmem, hpr⟩
      split at hpr
      · rename_i hcond
        obtain ⟨t, ht⟩ := hcond.2
        have hlen : t.length = 1 := by
          have := hcond.1
          rw [← ht] at this
          simp at this
          exact this
        obtain ⟨x, rfl⟩ : ∃ x, t = [x] := by
          cases t with
          | nil => simp at hlen
          | cons a t => cases t with
            | nil => exact ⟨a, rfl⟩
            | cons b t => simp at hlen
        rw [← ht] at hpr
        rw [List.getLast?_concat] at hpr
        have hx : x = s := by simpa using hpr
        have hkey : pr.1 = p ++ [s] := by rw [← hx]; exact ht.symm
        have h2 := FS.find_isSome_of_mem hmem
        rw [hkey] at h2
        exact h2
      · simp at hpr
    · intro hs
      cases hfind : FS.find fs (p ++ [s]) with
      | none => rw [hfind] at hs; simp at hs
      | some n =>
        obtain ⟨pr, hmem, hkey, -⟩ := FS.find_mem hfind
        refine ⟨pr, hmem, ?_⟩
        rw [if_pos ⟨by rw [hkey]; simp, by rw [hkey]; exact pfx_append p [s]⟩]
        rw [hkey, List.getLast?_concat]

/-- The reversed canonical enumeration: a second valid order, used to witness
order (in)sensitivity. -/
def revEnum (fs : FS) (p : Path) : List String := (readdir fs p).reverse

theorem revEnum_valid : ValidEnum revEnum := by
  intro fs p
  refine ⟨List.nodup_reverse.mpr (readdir_valid fs p).1, fun s => ?_⟩
  rw [revEnum, List.mem_reverse]
  exact (readdir_valid fs p).2 s

/-- `process.argv[2] || "."` (src/index.js line 23): a missing positional
argument, or an empty one (falsy in JavaScript), defaults the target directory
to `"."`, the current working directory. -/
def resolveTarget : Option String → String
  | none => "."
  | some s => if s = "" then "." else s

/-- Split a path string on the separator into components. -/
def splitPath : List Char → String → List String
  | [], cur => [cur]
  | c :: rest, cur =>
    if c = '/' then cur :: splitPath rest "" else splitPath rest (cur.push c)

def parsePath (s : String) : Path := splitPath s.toList ""

/-- The entry-point IIFE (src/index.js lines 22-29): resolve the target
directory from `argv[2]`, locate the bundled template next to the program
(`path.join(__dirname, "template")`) and invoke `copyRecursive` once.
`dirname` abstracts `__dirname`. -/
def runMain (enum : FS → Path → List String) (fuel : Nat) (dirname : Path)
    (argv2 : Option String) (fs : FS) : Res :=
  copyRecursive enum fuel (dirname ++ ["template"]) (parsePath (resolveTarget argv2)) fs

/-- Console output of the entry point: exactly one success line, printed only
when `copyRecursive` returned without error; an error escapes the IIFE
uncaught and nothing is printed on stdout. -/
def mainOutput (enum : FS → Path → List String) (fuel : Nat) (dirname : Path)
    (argv2 : Option String) (fs : FS) : List String :=
  match runMain enum fuel dirname argv2 fs with
  | .ok _ => ["✅ Project created successfully!"]
  | .err _ _ => []

theorem WF_iff_ext (fs : FS) : WF fs ↔ ∀ p n, FS.find fs p = some n →
    p ≠ [] ∧ ∀ i, 0 < i → i < p.length → FS.find fs (p.take i) = some Node.dir := by
  constructor
  · intro hwf p n h
    exact hwf.find h
  · intro hext pr hmem
    have h := FS.find_isSome_of_mem hmem
    cases hf : FS.find fs pr.1 with
    | none => rw [hf] at h; simp at h
    | some n =>
      have := hext pr.1 n hf
      exact ⟨this.1, fun i hlt h0 => this.2 i h0 hlt⟩

theorem take_pfx (dest : Path) (j : Nat) : pfx (dest.take j) dest :=
  ⟨dest.drop j, List.take_append_drop j dest⟩

theorem length_take_of_le {dest : Path} {j : Nat} (h : j ≤ dest.length) :
    (dest.take j).length = j := by
  rw [List.length_take]
  omega

theorem take_ne_take {dest : Path} {j k : Nat} (hj : j ≤ dest.length)
    (hk : k ≤ dest.length) (hne : j ≠ k) : dest.take j ≠ dest.take k := by
  intro hc
  have := congrArg List.length hc
  rw [length_take_of_le hj, length_take_of_le hk] at this
  exact hne this

theorem pfx_iff_take {q dest : Path} :
    pfx q dest ↔ q.length ≤ dest.length ∧ q = dest.take q.length := by
  constructor
  · rintro ⟨t, rfl⟩
    exact ⟨by simp, by simp⟩
  · rintro ⟨h1, h2⟩
    obtain ⟨k, hk⟩ : ∃ k, k = q.length := ⟨_, rfl⟩
    rw [← hk] at h2
    exact ⟨dest.drop k, by rw [h2]; exact List.take_append_drop k dest⟩

theorem take_nonempty {dest : Path} {j : Nat} (h1 : 1 ≤ j) (h2 : j ≤ dest.length) :
    dest.take j ≠ [] := by
  intro hc
  have := congrArg List.length hc
  rw [length_take_of_le h2] at this
  simp at this
  omega

/-- Any change a recursive-mkdir pass makes is the creation of a previously
missing ancestor of `dest`, as a directory — on success and on failure alike. -/
theorem mkdirAux_changes (fs : FS) (dest : Path) (i : Nat) :
    ∀ q, FS.find (mkdirAux fs dest i).state q ≠ FS.find fs q →
    FS.find fs q = none ∧ FS.find (mkdirAux fs dest i).state q = some Node.dir ∧
      ∃ j, 1 ≤ j ∧ j ≤ i ∧ q = dest.take j := by
  induction i with
  | zero => intro q h; simp [mkdirAux, Res.state] at h
  | succ i ih =>
    intro q h
    cases hr : mkdirAux fs dest i with
    | err e g =>
      have hs : (mkdirAux fs dest (i + 1)).state = g := by
        rw [mkdirAux, hr]; rfl
      have ihg : (mkdirAux fs dest i).state = g := by rw [hr]; rfl
      rw [hs] at h
      rw [ihg] at ih
      obtain ⟨h1, h2, j, hj1, hj2, hj3⟩ := ih q h
      exact ⟨h1, by rw [hs]; exact h2, j, hj1, Nat.le_succ_of_le hj2, hj3⟩
    | ok g =>
      have ihg : (mkdirAux fs dest i).state = g := by rw [hr]; rfl
      rw [ihg] at ih
      cases hfind : FS.find g (dest.take (i + 1)) with
      | none =>
        have hs : (mkdirAux fs dest (i + 1)).state
            = FS.set g (dest.take (i + 1)) Node.dir := by
          rw [mkdirAux, hr, Res.bind_ok, hfind]; rfl
        rw [hs] at h ⊢
        rw [FS.find_set] at h ⊢
        by_cases hq : q = dest.take (i + 1)
        · rw [if_pos hq] at h ⊢
          refine ⟨?_, rfl, i + 1, by omega, Nat.le_refl _, hq⟩
          by_cases hch : FS.find g q = FS.find fs q
          · rw [← hch, hq, hfind]
          · have := (ih q hch).2.1
            rw [hq, hfind] at this
            simp at this
        · rw [if_neg hq] at h ⊢
          obtain ⟨h1, h2, j, hj1, hj2, hj3⟩ := ih q h
          exact ⟨h1, h2, j, hj1, Nat.le_succ_of_le hj2, hj3⟩
      | some n =>
        have hs : (mkdirAux fs dest (i + 1)).state = g := by
          rw [mkdirAux, hr, Res.bind_ok, hfind]
          cases n <;> rfl
        rw [hs] at h ⊢
        obtain ⟨h1, h2, j, hj1, hj2, hj3⟩ := ih q h
        exact ⟨h1, h2, j, hj1, Nat.le_succ_of_le hj2, hj3⟩

/-- After a successful recursive mkdir pass, every ancestor of `dest` down to
depth `i` is a present directory. -/
theorem mkdirAux_ok_chain {fs : FS} {dest : Path} {i : Nat} {g : FS}
    (hle : i ≤ dest.length) (h : mkdirAux fs dest i = .ok g) :
    ∀ j, 1 ≤ j → j ≤ i → FS.find g (dest.take j) = some Node.dir := by
  induction i generalizing g with
  | zero => intro j hj1 hj2; omega
  | succ i ih =>
    rw [mkdirAux] at h
    obtain ⟨g₀, hg₀, hstep⟩ := Res.ok_of_bind_ok h
    intro j hj1 hj2
    have hne : ∀ k, k ≤ i → dest.take (i + 1) ≠ dest.take k := by
      intro k hk
      exact take_ne_take hle (by omega) (by omega)
    cases hfind : FS.find g₀ (dest.take (i + 1)) with
    | none =>
      rw [hfind] at hstep
      have hg : g = FS.set g₀ (dest.take (i + 1)) Node.dir := by
        simpa using hstep.symm
      subst hg
      rw [FS.find_set]
      by_cases hq : dest.take j = dest.take (i + 1)
      · rw [if_pos hq]
      · rw [if_neg hq]
        have hj : j ≤ i := by
          by_contra hc
          have hji : j = i + 1 := by omega
          exact hq (by rw [hji])
        exact ih (by omega) hg₀ j hj1 hj
    | some n =>
      cases n with
      | dir =>
        rw [hfind] at hstep
        have hg : g = g₀ := by simpa using hstep.symm
        subst hg
        by_cases hj : j ≤ i
        · exact ih (by omega) hg₀ j hj1 hj
        · have : j = i + 1 := by omega
          rw [this]
          exact hfind
      | file c =>
        rw [hfind] at hstep
        simp at hstep

/-- A successful recursive mkdir pass implies no regular file occupied any of
the ancestors it visited. -/
theorem mkdirAux_ok_nofile {fs : FS} {dest : Path} {i : Nat} {g : FS}
    (hle : i ≤ dest.length) (h : mkdirAux fs dest i = .ok g) :
    ∀ j c, 1 ≤ j → j ≤ i → FS.find fs (dest.take j) ≠ some (Node.file c) := by
  induction i generalizing g with
  | zero => intro j c hj1 hj2; omega
  | succ i ih =>
    rw [mkdirAux] at h
    obtain ⟨g₀, hg₀, hstep⟩ := Res.ok_of_bind_ok h
    intro j c hj1 hj2
    by_cases hj : j ≤ i
    · exact ih (by omega) hg₀ j c hj1 hj
    · have hji : j = i + 1 := by omega
      subst hji
      intro hc
      have hg₀q : FS.find g₀ (dest.take (i + 1)) = some (Node.file c) := by
        by_cases hch : FS.find g₀ (dest.take (i + 1)) = FS.find fs (dest.take (i + 1))
        · rw [hch, hc]
        · have := mkdirAux_changes fs dest i (dest.take (i + 1))
            (by rw [hg₀]; simpa [Res.state] using hch)
          rw [hg₀] at this
          simp only [Res.state] at this
          exact absurd hc (by rw [this.1]; simp)
      rw [hg₀q] at hstep
      simp at hstep

/-- A successful recursive mkdir pass preserves well-formedness. -/
theorem mkdirAux_ok_wf {fs : FS} {dest : Path} {i : Nat} {g : FS}
    (hwf : WF fs) (hle : i ≤ dest.length) (h : mkdirAux fs dest i = .ok g) : WF g := by
  rw [WF_iff_ext]
  intro p n hp
  have hstate : (mkdirAux fs dest i).state = g := by rw [h]; rfl
  by_cases hch : FS.find g p = FS.find fs p
  · rw [hch] at hp
    obtain ⟨h1, h2⟩ := hwf.find hp
    refine ⟨h1, fun k h0 hlt => ?_⟩
    by_cases hck : FS.find g (p.take k) = FS.find fs (p.take k)
    · rw [hck]; exact h2 k h0 hlt
    · rw [← hstate] at hck
      have := mkdirAux_changes fs dest i (p.take k) hck
      rw [hstate] at this
      exact this.2.1
  · rw [← hstate] at hch
    have := mkdirAux_changes fs dest i p hch
    rw [hstate] at this
    obtain ⟨-, hdir, j, hj1, hj2, hj3⟩ := this
    subst hj3
    refine ⟨take_nonempty hj1 (by omega), fun k h0 hlt => ?_⟩
    rw [length_take_of_le (by omega)] at hlt
    rw [List.take_take]
    have hmin : min k j = k := by omega
    rw [hmin]
    exact mkdirAux_ok_chain hle h k h0 (by omega)

/-- Anatomy of a successful `copyFileSync`. -/
theorem copyFile_ok {fs : FS} {s d : Path} {g : FS} (h : copyFile fs s d = .ok g) :
    ∃ c, FS.find fs s = some (Node.file c) ∧ g = FS.set fs d (Node.file c) ∧
      FS.find fs d ≠ some Node.dir ∧
      (d.dropLast = [] ∨ FS.find fs d.dropLast = some Node.dir) := by
  cases hs : FS.find fs s with
  | none => simp [copyFile, hs] at h
  | some n =>
    cases n with
    | dir => simp [copyFile, hs] at h
    | file c =>
      by_cases hd : FS.find fs d = some Node.dir
      · simp [copyFile, hs, hd] at h
      · by_cases hpar : d.dropLast = [] ∨ FS.find fs d.dropLast = some Node.dir
        · have hok : copyFile fs s d = .ok (FS.set fs d (Node.file c)) := by
            unfold copyFile
            rw [hs]
            simp only [if_neg hd, if_pos hpar]
          rw [hok] at h
          simp only [Res.ok.injEq] at h
          exact ⟨c, rfl, h.symm, hd, hpar⟩
        · have herr : copyFile fs s d = .err FsErr.enotdir fs := by
            unfold copyFile
            rw [hs]
            simp only [if_neg hd, if_neg hpar]
          rw [herr] at h
          simp at h

/-- A failed `copyFileSync` leaves the state untouched. -/
theorem copyFile_err {fs : FS} {s d : Path} {e : FsErr} {g : FS}
    (h : copyFile fs s d = .err e g) : g = fs := by
  cases hs : FS.find fs s with
  | none =>
    simp only [copyFile, hs] at h
    simp at h
    exact h.2.symm
  | some n =>
    cases n with
    | dir =>
      simp only [copyFile, hs] at h
      simp at h
      exact h.2.symm
    | file c =>
      by_cases hd : FS.find fs d = some Node.dir
      · simp only [copyFile, hs, if_pos hd] at h
        simp at h
        exact h.2.symm
      · by_cases hpar : d.dropLast = [] ∨ FS.find fs d.dropLast = some Node.dir
        · simp only [copyFile, hs, if_neg hd, if_pos hpar] at h
          simp at h
        · simp only [copyFile, hs, if_neg hd, if_neg hpar] at h
          simp at h
          exact h.2.symm

/-- A successful `copyFileSync` to a nonempty destination path preserves
well-formedness. -/
theorem copyFile_ok_wf {fs : FS} {s d : Path} {g : FS}
    (hwf : WF fs) (hd : d ≠ []) (h : copyFile fs s d = .ok g) : WF g := by
  obtain ⟨c, -, hg, hnotdir, hparent⟩ := copyFile_ok h
  subst hg
  rw [WF_iff_ext]
  intro p n hp
  rw [FS.find_set] at hp
  by_cases hpd : p = d
  · subst hpd
    refine ⟨hd, fun k h0 hlt => ?_⟩
    rw [FS.find_set]
    have hne : p.take k ≠ p := by
      intro hc
      have := congrArg List.length hc
      rw [List.length_take] at this
      omega
    rw [if_neg hne]
    rcases hparent with hroot | hpar
    · exfalso
      have : p.length ≤ 1 := by
        have := congrArg List.length hroot
        rw [List.dropLast_eq_take, List.length_take] at this
        simp at this
        omega
      omega
    · have hdl : p.dropLast = p.take (p.length - 1) := List.dropLast_eq_take p
      by_cases hk : k = p.length - 1
      · rw [hk, ← hdl]
        exact hpar
      · have hlt' : k < p.length - 1 := by omega
        rw [hdl] at hpar
        have := (hwf.find hpar).2 k h0 (by rw [length_take_of_le (by omega)]; omega)
        rw [List.take_take] at this
        have hmin : min k (p.length - 1) = k := by omega
        rw [hmin] at this
        exact this
  · rw [if_neg hpd] at hp
    obtain ⟨h1, h2⟩ := hwf.find hp
    refine ⟨h1, fun k h0 hlt => ?_⟩
    rw [FS.find_set]
    have hne : p.take k ≠ d := by
      intro hc
      have := h2 k h0 hlt
      rw [hc] at this
      cases hdfs : FS.find fs d with
      | none => rw [hdfs] at this; simp at this
      | some m =>
        rw [hdfs] at this
        cases m with
        | dir => exact hnotdir hdfs
        | file c' => simp at this
    rw [if_neg hne]
    exact h2 k h0 hlt

theorem copyRecursive_zero (enum : FS → Path → List String) (src dest : Path)
    (fs : FS) : copyRecursive enum 0 src dest fs = .err FsErr.fuelOut fs := rfl

theorem copyRecursive_succ (enum : FS → Path → List String) (fuel : Nat)
    (src dest : Path) (fs : FS) :
    copyRecursive enum (fuel + 1) src dest fs =
      Res.bind (if FS.find fs dest = none then mkdirRec fs dest else .ok fs) fun g =>
        match FS.find g src with
        | some Node.dir =>
          copyEntries (fun s d h => copyRecursive enum fuel s d h) src dest (enum g src) g
        | _ => .err FsErr.enoent g := rfl

theorem copyEntries_nil (recurse : Path → Path → FS → Res) (src dest : Path)
    (fs : FS) : copyEntries recurse src dest [] fs = .ok fs := rfl

theorem copyEntries_cons (recurse : Path → Path → FS → Res) (src dest : Path)
    (name : String) (rest : List String) (fs : FS) :
    copyEntries recurse src dest (name :: rest) fs =
      Res.bind (copyEntry recurse src dest name fs)
        (copyEntries recurse src dest rest) := rfl

/-- `Confined fs fs' dest`: every difference between `fs` and `fs'` is either a
write at or below `dest`, or the creation of a previously missing ancestor of
`dest` as a directory.  This is the write footprint of one `copyRecursive`
invocation. -/
def Confined (fs fs' : FS) (dest : Path) : Prop :=
  ∀ p, FS.find fs' p = FS.find fs p ∨ pfx dest p ∨
    (p ≠ [] ∧ pfx p dest ∧ FS.find fs p = none ∧ FS.find fs' p = some Node.dir)

theorem Confined_refl (fs : FS) (dest : Path) : Confined fs fs dest :=
  fun _ => Or.inl rfl

theorem Confined_trans {fs₁ fs₂ fs₃ : FS} {dest : Path}
    (h₁ : Confined fs₁ fs₂ dest) (h₂ : Confined fs₂ fs₃ dest) :
    Confined fs₁ fs₃ dest := by
  intro p
  rcases h₂ p with he | hd | ⟨hne, hpd, hnone, hdir⟩
  · rcases h₁ p with he' | hd' | ⟨hne', hpd', hnone', hdir'⟩
    · exact Or.inl (he.trans he')
    · exact Or.inr (Or.inl hd')
    · exact Or.inr (Or.inr ⟨hne', hpd', hnone', by rw [he]; exact hdir'⟩)
  · exact Or.inr (Or.inl hd)
  · rcases h₁ p with he' | hd' | ⟨hne', hpd', hnone', hdir'⟩
    · exact Or.inr (Or.inr ⟨hne, hpd, by rw [← he']; exact hnone, hdir⟩)
    · exact Or.inr (Or.inl hd')
    · rw [hdir'] at hnone
      cases hnone

theorem Confined.widen {fs fs' : FS} {d dest : Path}
    (h : Confined fs fs' d) (hd : pfx dest d) : Confined fs fs' dest := by
  intro p
  rcases h p with he | hsub | ⟨hne, hpd, hnone, hdir⟩
  · exact Or.inl he
  · exact Or.inr (Or.inl (pfx_trans hd hsub))
  · rcases pfx_comparable hpd hd with hc | hc
    · exact Or.inr (Or.inr ⟨hne, hc, hnone, hdir⟩)
    · exact Or.inr (Or.inl hc)

/-- Confinement keeps the subtree of any path incomparable with `dest`
pointwise unchanged — in particular the source subtree. -/
theorem Confined.src_stable {fs fs' : FS} {src dest : Path}
    (h : Confined fs fs' dest) (hinc : Incomp src dest) (r : Path) :
    FS.find fs' (src ++ r) = FS.find fs (src ++ r) := by
  rcases h (src ++ r) with he | hd | ⟨-, hpd, -, -⟩
  · exact he
  · exact absurd hd (incomp_subtree hinc r).1
  · exact absurd hpd (incomp_subtree hinc r).2

theorem mkdirAux_confined (fs : FS) (dest : Path) (i : Nat) (hle : i ≤ dest.length) :
    Confined fs (mkdirAux fs dest i).state dest := by
  intro p
  by_cases h : FS.find (mkdirAux fs dest i).state p = FS.find fs p
  · exact Or.inl h
  · obtain ⟨h1, h2, j, hj1, hj2, hj3⟩ := mkdirAux_changes fs dest i p h
    refine Or.inr (Or.inr ⟨?_, ?_, h1, h2⟩)
    · rw [hj3]; exact take_nonempty hj1 (by omega)
    · rw [hj3]; exact take_pfx dest j

theorem copyFile_confined (fs : FS) (s d : Path) (dest : Path) (hd : pfx dest d) :
    Confined fs (copyFile fs s d).state dest := by
  cases hr : copyFile fs s d with
  | ok g =>
    obtain ⟨c, -, hg, -, -⟩ := copyFile_ok hr
    subst hg
    intro p
    simp only [Res.state]
    rw [FS.find_set]
    by_cases hp : p = d
    · exact Or.inr (Or.inl (hp ▸ hd))
    · rw [if_neg hp]
      exact Or.inl rfl
  | err e g =>
    have hg : g = fs := copyFile_err hr
    show Confined fs g dest
    rw [hg]
    exact Confined_refl fs dest

theorem copyEntry_confined {recurse : Path → Path → FS → Res} (src dest : Path)
    (name : String) (fs : FS)
    (hrec : ∀ s d g, Confined g (recurse s d g).state d) :
    Confined fs (copyEntry recurse src dest name fs).state dest := by
  unfold copyEntry
  cases FS.find fs (src ++ [name]) with
  | none => exact Confined_refl fs dest
  | some n =>
    cases n with
    | dir => exact (hrec _ _ fs).widen (pfx_append dest [name])
    | file c => exact copyFile_confined fs _ _ dest (pfx_append dest [name])

theorem copyEntries_confined {recurse : Path → Path → FS → Res} (src dest : Path)
    (hrec : ∀ s d g, Confined g (recurse s d g).state d) :
    ∀ (l : List String) (fs : FS),
    Confined fs (copyEntries recurse src dest l fs).state dest := by
  intro l
  induction l with
  | nil => intro fs; exact Confined_refl fs dest
  | cons name rest ih =>
    intro fs
    rw [copyEntries_cons]
    cases hr : copyEntry recurse src dest name fs with
    | ok g =>
      have h1 : Confined fs g dest := by
        have := copyEntry_confined src dest name fs hrec
        rw [hr] at this
        exact this
      rw [Res.bind_ok]
      exact Confined_trans h1 (ih g)
    | err e g =>
      have h1 : Confined fs g dest := by
        have := copyEntry_confined src dest name fs hrec
        rw [hr] at this
        exact this
      rw [Res.bind_err]
      exact h1

/-- The write footprint of `copyRecursive`, for every outcome: all effects are
at or below `dest`, or directory creations at missing ancestors of `dest`. -/
theorem copyRecursive_confined (enum : FS → Path → List String) :
    ∀ (fuel : Nat) (src dest : Path) (fs : FS),
    Confined fs (copyRecursive enum fuel src dest fs).state dest := by
  intro fuel
  induction fuel with
  | zero => intro src dest fs; exact Confined_refl fs dest
  | succ fuel ih =>
    intro src dest fs
    rw [copyRecursive_succ]
    have hphase : Confined fs
        ((if FS.find fs dest = none then mkdirRec fs dest else .ok fs)).state dest := by
      by_cases hd : FS.find fs dest = none
      · rw [if_pos hd]
        exact mkdirAux_confined fs dest dest.length (Nat.le_refl _)
      · rw [if_neg hd]
        exact Confined_refl fs dest
    cases hr : (if FS.find fs dest = none then mkdirRec fs dest else .ok fs) with
    | err e g =>
      rw [Res.bind_err]
      rw [hr] at hphase
      exact hphase
    | ok g =>
      rw [Res.bind_ok]
      rw [hr] at hphase
      cases hsrc : FS.find g src with
      | none => exact hphase
      | some n =>
        cases n with
        | dir =>
          simp only
          exact Confined_trans hphase (copyEntries_confined src dest ih (enum g src) g)
        | file c => exact hphase

/-- No operation of the model ever removes a present path: presence is
monotone across every outcome (the source never deletes anything, so partial
progress is never rolled back). -/
def presMono (fs fs' : FS) : Prop :=
  ∀ p, (FS.find fs p).isSome → (FS.find fs' p).isSome

theorem presMono_refl (fs : FS) : presMono fs fs := fun _ h => h

theorem presMono_trans {fs₁ fs₂ fs₃ : FS} (h₁ : presMono fs₁ fs₂)
    (h₂ : presMono fs₂ fs₃) : presMono fs₁ fs₃ := fun p h => h₂ p (h₁ p h)

theorem mkdirAux_presMono (fs : FS) (dest : Path) (i : Nat) :
    presMono fs (mkdirAux fs dest i).state := by
  intro p hp
  by_cases h : FS.find (mkdirAux fs dest i).state p = FS.find fs p
  · rw [h]; exact hp
  · rw [(mkdirAux_changes fs dest i p h).2.1]
    rfl

theorem copyFile_presMono (fs : FS) (s d : Path) :
    presMono fs (copyFile fs s d).state := by
  cases hr : copyFile fs s d with
  | ok g =>
    obtain ⟨c, -, hg, -, -⟩ := copyFile_ok hr
    subst hg
    intro p hp
    simp only [Res.state]
    rw [FS.find_set]
    by_cases hpd : p = d
    · rw [if_pos hpd]; rfl
    · rw [if_neg hpd]; exact hp
  | err e g =>
    have hg : g = fs := copyFile_err hr
    show presMono fs g
    rw [hg]
    exact presMono_refl fs

theorem copyEntry_presMono {recurse : Path → Path → FS → Res} (src dest : Path)
    (name : String) (fs : FS)
    (hrec : ∀ s d g, presMono g (recurse s d g).state) :
    presMono fs (copyEntry recurse src dest name fs).state := by
  unfold copyEntry
  cases FS.find fs (src ++ [name]) with
  | none => exact presMono_refl fs
  | some n =>
    cases n with
    | dir => exact hrec _ _ fs
    | file c => exact copyFile_presMono fs _ _

theorem copyEntries_presMono {recurse : Path → Path → FS → Res} (src dest : Path)
    (hrec : ∀ s d g, presMono g (recurse s d g).state) :
    ∀ (l : List String) (fs : FS),
    presMono fs (copyEntries recurse src dest l fs).state := by
  intro l
  induction l with
  | nil => intro fs; exact presMono_refl fs
  | cons name rest ih =>
    intro fs
    rw [copyEntries_cons]
    cases hr : copyEntry recurse src dest name fs with
    | ok g =>
      have h1 : presMono fs g := by
        have := copyEntry_presMono src dest name fs hrec
        rw [hr] at this
        exact this
      rw [Res.bind_ok]
      exact presMono_trans h1 (ih g)
    | err e g =>
      have h1 : presMono fs g := by
        have := copyEntry_presMono src dest name fs hrec
        rw [hr] at this
        exact this
      rw [Res.bind_err]
      exact h1

theorem copyRecursive_presMono (enum : FS → Path → List String) :
    ∀ (fuel : Nat) (src dest : Path) (fs : FS),
    presMono fs (copyRecursive enum fuel src dest fs).state := by
  intro fuel
  induction fuel with
  | zero => intro src dest fs; exact presMono_refl fs
  | succ fuel ih =>
    intro src dest fs
    rw [copyRecursive_succ]
    have hphase : presMono fs
        ((if FS.find fs dest = none then mkdirRec fs dest else .ok fs)).state := by
      by_cases hd : FS.find fs dest = none
      · rw [if_pos hd]
        exact mkdirAux_presMono fs dest dest.length
      · rw [if_neg hd]
        exact presMono_refl fs
    cases hr : (if FS.find fs dest = none then mkdirRec fs dest else .ok fs) with
    | err e g =>
      rw [Res.bind_err]
      rw [hr] at hphase
      exact hphase
    | ok g =>
      rw [Res.bind_ok]
      rw [hr] at hphase
      cases hsrc : FS.find g src with
      | none => exact hphase
      | some n =>
        cases n with
        | dir =>
          simp only
          exact presMono_trans hphase (copyEntries_presMono src dest ih (enum g src) g)
        | file c => exact hphase

/-- Present directories survive every operation of the model: nothing ever
overwrites or removes an existing directory. -/
def dirPres (fs fs' : FS) : Prop :=
  ∀ p, FS.find fs p = some Node.dir → FS.find fs' p = some Node.dir

theorem dirPres_refl (fs : FS) : dirPres fs fs := fun _ h => h

theorem dirPres_trans {fs₁ fs₂ fs₃ : FS} (h₁ : dirPres fs₁ fs₂)
    (h₂ : dirPres fs₂ fs₃) : dirPres fs₁ fs₃ := fun p h => h₂ p (h₁ p h)

theorem mkdirAux_dirPres (fs : FS) (dest : Path) (i : Nat) :
    dirPres fs (mkdirAux fs dest i).state := by
  intro p hp
  by_cases h : FS.find (mkdirAux fs dest i).state p = FS.find fs p
  · rw [h]; exact hp
  · exact (mkdirAux_changes fs dest i p h).2.1

theorem copyFile_dirPres (fs : FS) (s d : Path) :
    dirPres fs (copyFile fs s d).state := by
  cases hr : copyFile fs s d with
  | ok g =>
    obtain ⟨c, -, hg, hnotdir, -⟩ := copyFile_ok hr
    subst hg
    intro p hp
    simp only [Res.state]
    rw [FS.find_set]
    by_cases hpd : p = d
    · subst hpd
      exact absurd hp hnotdir
    · rw [if_neg hpd]; exact hp
  | err e g =>
    have hg : g = fs := copyFile_err hr
    show dirPres fs g
    rw [hg]
    exact dirPres_refl fs

theorem copyEntry_dirPres {recurse : Path → Path → FS → Res} (src dest : Path)
    (name : String) (fs : FS)
    (hrec : ∀ s d g, dirPres g (recurse s d g).state) :
    dirPres fs (copyEntry recurse src dest name fs).state := by
  unfold copyEntry
  cases FS.find fs (src ++ [name]) with
  | none => exact dirPres_refl fs
  | some n =>
    cases n with
    | dir => exact hrec _ _ fs
    | file c => exact copyFile_dirPres fs _ _

theorem copyEntries_dirPres {recurse : Path → Path → FS → Res} (src dest : Path)
    (hrec : ∀ s d g, dirPres g (recurse s d g).state) :
    ∀ (l : List String) (fs : FS),
    dirPres fs (copyEntries recurse src dest l fs).state := by
  intro l
  induction l with
  | nil => intro fs; exact dirPres_refl fs
  | cons name rest ih =>
    intro fs
    rw [copyEntries_cons]
    cases hr : copyEntry recurse src dest name fs with
    | ok g =>
      have h1 : dirPres fs g := by
        have := copyEntry_dirPres src dest name fs hrec
        rw [hr] at this
        exact this
      rw [Res.bind_ok]
      exact dirPres_trans h1 (ih g)
    | err e g =>
      have h1 : dirPres fs g := by
        have := copyEntry_dirPres src dest name fs hrec
        rw [hr] at this
        exact this
      rw [Res.bind_err]
      exact h1

theorem copyRecursive_dirPres (enum : FS → Path → List String) :
    ∀ (fuel : Nat) (src dest : Path) (fs : FS),
    dirPres fs (copyRecursive enum fuel src dest fs).state := by
  intro fuel
  induction fuel with
  | zero => intro src dest fs; exact dirPres_refl fs
  | succ fuel ih =>
    intro src dest fs
    rw [copyRecursive_succ]
    have hphase : dirPres fs
        ((if FS.find fs dest = none then mkdirRec fs dest else .ok fs)).state := by
      by_cases hd : FS.find fs dest = none
      · rw [if_pos hd]
        exact mkdirAux_dirPres fs dest dest.length
      · rw [if_neg hd]
        exact dirPres_refl fs
    cases hr : (if FS.find fs dest = none then mkdirRec fs dest else .ok fs) with
    | err e g =>
      rw [Res.bind_err]
      rw [hr] at hphase
      exact hphase
    | ok g =>
      rw [Res.bind_ok]
      rw [hr] at hphase
      cases hsrc : FS.find g src with
      | none => exact hphase
      | some n =>
        cases n with
        | dir =>
          simp only
          exact dirPres_trans hphase (copyEntries_dirPres src dest ih (enum g src) g)
        | file c => exact hphase

/-- Splitting a loop: processing `l₁ ++ l₂` is processing `l₁`, then — if that
succeeded — processing `l₂` from the resulting state.  An error in `l₁` is the
overall result, untouched: nothing is caught, nothing after it runs. -/
theorem copyEntries_append (recurse : Path → Path → FS → Res) (src dest : Path)
    (l₁ l₂ : List String) (fs : FS) :
    copyEntries recurse src dest (l₁ ++ l₂) fs =
      Res.bind (copyEntries recurse src dest l₁ fs) (copyEntries recurse src dest l₂) := by
  induction l₁ generalizing fs with
  | nil => rw [List.nil_append, copyEntries_nil, Res.bind_ok]
  | cons name rest ih =>
    rw [List.cons_append, copyEntries_cons, copyEntries_cons]
    cases copyEntry recurse src dest name fs with
    | ok g => rw [Res.bind_ok, Res.bind_ok, ih]
    | err e g => rw [Res.bind_err, Res.bind_err, Res.bind_err]

/-- Unpack a successful `copyRecursive` call: the mkdir phase succeeded, the
source was a present directory, and the loop over its enumerated entries
succeeded. -/
theorem copyRecursive_succ_ok {enum : FS → Path → List String} {fuel : Nat}
    {src dest : Path} {fs fs' : FS}
    (h : copyRecursive enum (fuel + 1) src dest fs = .ok fs') :
    ∃ g, (if FS.find fs dest = none then mkdirRec fs dest else .ok fs) = .ok g ∧
      FS.find g src = some Node.dir ∧
      copyEntries (fun s d h => copyRecursive enum fuel s d h) src dest
        (enum g src) g = .ok fs' := by
  rw [copyRecursive_succ] at h
  obtain ⟨g, hg, hrest⟩ := Res.ok_of_bind_ok h
  refine ⟨g, hg, ?_⟩
  cases hsrc : FS.find g src with
  | none => rw [hsrc] at hrest; simp at hrest
  | some n =>
    cases n with
    | dir =>
      rw [hsrc] at hrest
      exact ⟨rfl, hrest⟩
    | file c => rw [hsrc] at hrest; simp at hrest

/-- Unpack a successful loop iteration. -/
theorem copyEntry_ok_cases {recurse : Path → Path → FS → Res} {src dest : Path}
    {name : String} {fs g : FS}
    (h : copyEntry recurse src dest name fs = .ok g) :
    (FS.find fs (src ++ [name]) = some Node.dir ∧
      recurse (src ++ [name]) (dest ++ [name]) fs = .ok g) ∨
    (∃ c, FS.find fs (src ++ [name]) = some (Node.file c) ∧
      copyFile fs (src ++ [name]) (dest ++ [name]) = .ok g) := by
  unfold copyEntry at h
  cases hfind : FS.find fs (src ++ [name]) with
  | none => rw [hfind] at h; simp at h
  | some n =>
    cases n with
    | dir => rw [hfind] at h; exact Or.inl ⟨rfl, h⟩
    | file c => rw [hfind] at h; exact Or.inr ⟨c, rfl, h⟩

theorem copyEntry_ok_wf {recurse : Path → Path → FS → Res} {src dest : Path}
    {name : String} {fs g : FS} (hwf : WF fs)
    (hrec : ∀ s d h g', WF h → recurse s d h = .ok g' → WF g')
    (h : copyEntry recurse src dest name fs = .ok g) : WF g := by
  rcases copyEntry_ok_cases h with ⟨-, hr⟩ | ⟨c, -, hr⟩
  · exact hrec _ _ fs g hwf hr
  · exact copyFile_ok_wf hwf (by simp) hr

theorem copyEntries_ok_wf {recurse : Path → Path → FS → Res} {src dest : Path}
    (hrec : ∀ s d h g', WF h → recurse s d h = .ok g' → WF g') :
    ∀ {l : List String} {fs g : FS}, WF fs →
    copyEntries recurse src dest l fs = .ok g → WF g := by
  intro l
  induction l with
  | nil =>
    intro fs g hwf h
    rw [copyEntries_nil] at h
    simp only [Res.ok.injEq] at h
    rw [← h]
    exact hwf
  | cons name rest ih =>
    intro fs g hwf h
    rw [copyEntries_cons] at h
    obtain ⟨g₁, hg₁, hrest⟩ := Res.ok_of_bind_ok h
    exact ih (copyEntry_ok_wf hwf hrec hg₁) hrest

/-- A successful `copyRecursive` run preserves well-formedness of the
filesystem state. -/
theorem copyRecursive_ok_wf (enum : FS → Path → List String) :
    ∀ (fuel : Nat) {src dest : Path} {fs g : FS}, WF fs →
    copyRecursive enum fuel src dest fs = .ok g → WF g := by
  intro fuel
  induction fuel with
  | zero =>
    intro src dest fs g hwf h
    rw [copyRecursive_zero] at h
    simp at h
  | succ fuel ih =>
    intro src dest fs g hwf h
    obtain ⟨g₁, hphase, hsrc, hloop⟩ := copyRecursive_succ_ok h
    have hwf₁ : WF g₁ := by
      by_cases hd : FS.find fs dest = none
      · rw [if_pos hd] at hphase
        exact mkdirAux_ok_wf hwf (Nat.le_refl _) hphase
      · rw [if_neg hd] at hphase
        simp only [Res.ok.injEq] at hphase
        rw [← hphase]
        exact hwf
    exact copyEntries_ok_wf (fun s d h g' hw hr => ih hw hr) hwf₁ hloop

theorem pfx_eq_of_length {p q : Path} (h : pfx p q) (hl : q.length ≤ p.length) :
    p = q := by
  obtain ⟨t, rfl⟩ := h
  simp only [List.length_append] at hl
  have ht : t = [] := List.eq_nil_of_length_eq_zero (by omega)
  simp [ht]

theorem pfx_concat_cases {p q : Path} {x : String} (h : pfx p (q ++ [x])) :
    pfx p q ∨ p = q ++ [x] := by
  rcases Nat.lt_or_ge p.length (q ++ [x]).length with hl | hl
  · obtain ⟨t, ht⟩ := h
    exact Or.inl (pfx_of_append_eq ht (by simp at hl ⊢; omega))
  · exact Or.inr (pfx_eq_of_length h hl)

theorem pfx_single_unique {dest p : Path} {a b : String}
    (ha : pfx (dest ++ [a]) p) (hb : pfx (dest ++ [b]) p) : a = b := by
  have hlen : (dest ++ [a]).length = (dest ++ [b]).length := by simp
  rcases pfx_comparable ha hb with hc | hc
  · have heq := pfx_eq_of_length hc (Nat.le_of_eq hlen.symm)
    simpa using heq
  · have heq := pfx_eq_of_length hc (Nat.le_of_eq hlen)
    have := heq.symm
    simpa using this

theorem pfx_not_concat_self (dest : Path) (x : String) : ¬ pfx (dest ++ [x]) dest := by
  intro h
  have := pfx_length_le h
  simp at this

theorem incomp_child_right {src dest : Path} (h : Incomp src dest) (name : String) :
    Incomp src (dest ++ [name]) := by
  constructor
  · intro hc
    rcases pfx_concat_cases hc with h1 | h1
    · exact h.1 h1
    · exact h.2 (by rw [h1]; exact pfx_append dest [name])
  · intro hc
    exact h.2 (pfx_of_pfx_append hc)

theorem eq_append_drop_of_pfx {dest p : Path} (hd : pfx dest p) :
    p = dest ++ p.drop dest.length := (pfx_drop hd).symm

/-- The pointwise description of a successful `copyRecursive src dest` run,
computed from the initial state: inside the `dest` subtree the source subtree
wins — a source file's bytes are copied, a source directory materializes as a
directory, except that an empty source directory never displaces a regular
file already sitting at the corresponding destination (the `existsSync` guard
skips mkdir and an empty readdir loop does nothing); destination paths with no
source counterpart keep their old value.  Missing nonempty ancestors of `dest`
are created as directories, and everything else is untouched. -/
def copySpec (fs : FS) (src dest p : Path) : Option Node :=
  if pfx dest p then
    match FS.find fs (src ++ p.drop dest.length) with
    | some (Node.file c) => some (Node.file c)
    | some Node.dir =>
      match FS.find fs p with
      | some (Node.file c) => some (Node.file c)
      | _ => some Node.dir
    | none => FS.find fs p
  else if p ≠ [] ∧ pfx p dest then
    match FS.find fs p with
    | some n => some n
    | none => some Node.dir
  else FS.find fs p

/-- `NoClash fs src dest`: wherever a source directory faces a regular file at
the corresponding destination path, that source directory has no entries.  A
successful run forces this: a nonempty source directory facing a destination
file fails while copying the first entry. -/
def NoClash (fs : FS) (src dest : Path) : Prop :=
  ∀ r c, FS.find fs (src ++ r) = some Node.dir →
    FS.find fs (dest ++ r) = some (Node.file c) →
    ∀ x, FS.find fs (src ++ r ++ [x]) = none

/-- The pointwise description of a successful run of the entry loop over names
`l`, from loop-entry state `g`: inside the subtree of a listed child the
corresponding per-child `copySpec` applies, everything else is untouched. -/
def entriesSpec (g : FS) (src dest : Path) (l : List String) (p : Path) :
    Option Node :=
  match p.drop dest.length with
  | [] => FS.find g p
  | s :: _ =>
    if pfx dest p ∧ s ∈ l then copySpec g (src ++ [s]) (dest ++ [s]) p
    else FS.find g p

/-- `copySpec` inside the destination subtree depends only on the source
subtree and the inspected path. -/
theorem copySpec_congr {g₁ g₂ : FS} {src' dest' p : Path}
    (hs : ∀ r, FS.find g₁ (src' ++ r) = FS.find g₂ (src' ++ r))
    (hp : FS.find g₁ p = FS.find g₂ p)
    (hd : pfx dest' p) : copySpec g₁ src' dest' p = copySpec g₂ src' dest' p := by
  simp only [copySpec, if_pos hd]
  rw [hs (p.drop dest'.length), hp]

/-- Pointwise description of one successful `copyFileSync` of the child
`name`: the per-child `copySpec` formula holds. -/
theorem copyFile_entry_spec {g : FS} {src dest : Path} {name : String} {g₁ : FS}
    (hwf : WF g) (hdest : (FS.find g dest).isSome)
    (hr : copyFile g (src ++ [name]) (dest ++ [name]) = .ok g₁) :
    ∀ p, FS.find g₁ p = copySpec g (src ++ [name]) (dest ++ [name]) p := by
  obtain ⟨c, hfile, hg₁, hnotdir, hpar⟩ := copyFile_ok hr
  intro p
  rw [hg₁, FS.find_set]
  by_cases hpd : pfx (dest ++ [name]) p
  · rcases hdrop : p.drop (dest ++ [name]).length with _ | ⟨x, rs⟩
    · have hp : p = dest ++ [name] := by
        have := eq_append_drop_of_pfx hpd
        rw [hdrop] at this
        simpa using this
      rw [if_pos hp]
      unfold copySpec
      rw [if_pos hpd, hdrop, List.append_nil, hfile]
    · have hp : p = (dest ++ [name]) ++ x :: rs := by
        have := eq_append_drop_of_pfx hpd
        rw [hdrop] at this
        exact this
      have hne : p ≠ dest ++ [name] := by
        rw [hp]
        intro hc
        have := congrArg List.length hc
        simp at this
      rw [if_neg hne]
      unfold copySpec
      rw [if_pos hpd, hdrop]
      have hbelow : FS.find g ((src ++ [name]) ++ x :: rs) = none := by
        refine hwf.below_file hfile (pfx_append _ _) ?_
        intro hc
        have := congrArg List.length hc
        simp at this
      rw [hbelow]
  · have hne : p ≠ dest ++ [name] := fun hc => hpd (by rw [hc]; exact pfx_refl _)
    rw [if_neg hne]
    unfold copySpec
    rw [if_neg hpd]
    by_cases hpre : p ≠ [] ∧ pfx p (dest ++ [name])
    · rw [if_pos hpre]
      rcases pfx_concat_cases hpre.2 with h1 | h1
      · rcases Option.isSome_iff_exists.mp hdest with ⟨n, hn⟩
        by_cases hpd2 : p = dest
        · rw [hpd2, hn]
        · rw [hwf.pfx_dir hn h1 hpd2 hpre.1]
      · exact absurd h1 hne
    · rw [if_neg hpre]

/-- Changes confined to the subtree of the child `dest ++ [name]` leave every
path outside that subtree untouched, given the destination itself is present
in a well-formed state (so no ancestor of it can be created). -/
theorem confined_child_untouched {g g₁ : FS} {dest : Path} {name : String}
    (hconf : Confined g g₁ (dest ++ [name])) (hwf : WF g)
    (hdest : (FS.find g dest).isSome) :
    ∀ p, ¬ pfx (dest ++ [name]) p → FS.find g₁ p = FS.find g p := by
  intro p hp
  rcases hconf p with he | hd | ⟨hne, hpd, hnone, -⟩
  · exact he
  · exact absurd hd hp
  · exfalso
    rcases pfx_concat_cases hpd with h1 | h1
    · rcases Option.isSome_iff_exists.mp hdest with ⟨n, hn⟩
      by_cases hpd2 : p = dest
      · rw [hpd2, hn] at hnone; cases hnone
      · have := hwf.pfx_dir hn h1 hpd2 hne
        rw [this] at hnone; cases hnone
    · exact hp (by rw [h1]; exact pfx_refl _)

/-- One conversion step for the loop formula: the per-child formula for the
processed head `name`, composed with the formula for the remaining names over
the intermediate state, equals the formula for `name :: rest` over the
original state. -/
theorem entriesSpec_cons_convert {g g₁ fs' : FS} {src dest : Path} {name : String}
    {rest : List String}
    (hwf : WF g) (hdest : (FS.find g dest).isSome) (hname : name ∉ rest)
    (hconf₁ : Confined g g₁ (dest ++ [name]))
    (hsrcstable : ∀ r, FS.find g₁ (src ++ r) = FS.find g (src ++ r))
    (hspec₁ : ∀ p, FS.find g₁ p = copySpec g (src ++ [name]) (dest ++ [name]) p)
    (hspecR : ∀ p, FS.find fs' p = entriesSpec g₁ src dest rest p) :
    ∀ p, FS.find fs' p = entriesSpec g src dest (name :: rest) p := by
  intro p
  have huntouched := confined_child_untouched hconf₁ hwf hdest
  rcases hdrop : p.drop dest.length with _ | ⟨s, rs⟩
  · rw [hspecR p]
    simp only [entriesSpec, hdrop]
    apply huntouched
    intro hc
    have hc2 : pfx dest p := pfx_of_pfx_append hc
    have hp : p = dest := by
      have := eq_append_drop_of_pfx hc2
      rw [hdrop] at this
      simpa using this
    rw [hp] at hc
    exact pfx_not_concat_self dest name hc
  · by_cases hguard : pfx dest p ∧ s ∈ name :: rest
    · have hpds : pfx (dest ++ [s]) p := by
        have hp := eq_append_drop_of_pfx hguard.1
        rw [hdrop] at hp
        refine ⟨rs, ?_⟩
        rw [hp]
        simp
      by_cases hsn : s = name
      · subst hsn
        rw [hspecR p]
        simp only [entriesSpec, hdrop]
        rw [if_neg (fun hc => hname hc.2), if_pos hguard]
        exact hspec₁ p
      · have hs_rest : s ∈ rest := by
          rcases List.mem_cons.mp hguard.2 with h | h
          · exact absurd h hsn
          · exact h
        rw [hspecR p]
        simp only [entriesSpec, hdrop]
        rw [if_pos ⟨hguard.1, hs_rest⟩, if_pos hguard]
        have hpeq : FS.find g₁ p = FS.find g p := by
          apply huntouched
          intro hc
          exact hsn (pfx_single_unique hpds hc)
        have hsr : ∀ r, FS.find g₁ ((src ++ [s]) ++ r) = FS.find g ((src ++ [s]) ++ r) := by
          intro r
          rw [List.append_assoc]
          exact hsrcstable ([s] ++ r)
        exact copySpec_congr hsr hpeq hpds
    · rw [hspecR p]
      simp only [entriesSpec, hdrop]
      have hguard' : ¬ (pfx dest p ∧ s ∈ rest) := by
        intro hc
        exact hguard ⟨hc.1, List.mem_cons_of_mem _ hc.2⟩
      rw [if_neg hguard', if_neg hguard]
      apply huntouched
      intro hc
      have hc2 : pfx dest p := pfx_of_pfx_append hc
      have hpds : pfx (dest ++ [s]) p := by
        have hp := eq_append_drop_of_pfx hc2
        rw [hdrop] at hp
        refine ⟨rs, ?_⟩
        rw [hp]
        simp
      have hns : name = s := pfx_single_unique hc hpds
      exact hguard ⟨hc2, by rw [← hns]; exact List.mem_cons_self _ _⟩

/-- Pointwise description of a successful entry loop, together with the
no-clash consequence: every listed source child that is a directory facing a
regular file at its destination must have been childless (otherwise the run
would have failed).  `recurse` is assumed to satisfy the per-call
specification, to confine its writes to its own destination subtree, and to
preserve well-formedness on success. -/
theorem copyEntries_spec {recurse : Path → Path → FS → Res}
    (hrecSpec : ∀ s d h h', WF h → FS.find h s = some Node.dir → Incomp s d →
      recurse s d h = .ok h' →
      (∀ p, FS.find h' p = copySpec h s d p) ∧ NoClash h s d)
    (hrecConf : ∀ s d h, Confined h (recurse s d h).state d)
    (hrecWF : ∀ s d h h', WF h → recurse s d h = .ok h' → WF h') :
    ∀ (l : List String), ∀ {src dest : Path} {g fs' : FS},
    WF g → FS.find g src = some Node.dir → (FS.find g dest).isSome →
    Incomp src dest → l.Nodup → (∀ s ∈ l, (FS.find g (src ++ [s])).isSome) →
    copyEntries recurse src dest l g = .ok fs' →
    (∀ p, FS.find fs' p = entriesSpec g src dest l p) ∧
    (∀ s ∈ l, ∀ r c, FS.find g (src ++ [s] ++ r) = some Node.dir →
      FS.find g (dest ++ [s] ++ r) = some (Node.file c) →
      ∀ x, FS.find g (src ++ [s] ++ r ++ [x]) = none) := by
  intro l
  induction l with
  | nil =>
    intro src dest g fs' hwf hsrc hdest hinc hnodup hchild h
    rw [copyEntries_nil] at h
    simp only [Res.ok.injEq] at h
    subst h
    constructor
    · intro p
      rcases hdrop : p.drop dest.length with _ | ⟨s, rs⟩
      · simp only [entriesSpec, hdrop]
      · simp only [entriesSpec, hdrop]
        rw [if_neg (by simp)]
    · intro s hs
      simp at hs
  | cons name rest ih =>
    intro src dest g fs' hwf hsrc hdest hinc hnodup hchild h
    rw [copyEntries_cons] at h
    obtain ⟨g₁, hentry, hrest⟩ := Res.ok_of_bind_ok h
    have hincc : Incomp (src ++ [name]) (dest ++ [name]) := incomp_extend hinc name
    have hincr : Incomp src (dest ++ [name]) := incomp_child_right hinc name
    have hname : name ∉ rest := (List.nodup_cons.mp hnodup).1
    have hnodupR : rest.Nodup := (List.nodup_cons.mp hnodup).2
    have hconf₁ : Confined g g₁ (dest ++ [name]) := by
      rcases copyEntry_ok_cases hentry with ⟨hdir, hr⟩ | ⟨c, hfile, hr⟩
      · have := hrecConf (src ++ [name]) (dest ++ [name]) g
        rw [hr] at this
        exact this
      · have := copyFile_confined g (src ++ [name]) (dest ++ [name])
          (dest ++ [name]) (pfx_refl _)
        rw [hr] at this
        exact this
    have huntouched := confined_child_untouched hconf₁ hwf hdest
    have hsrcstable : ∀ r, FS.find g₁ (src ++ r) = FS.find g (src ++ r) :=
      fun r => Confined.src_stable hconf₁ hincr r
    have hspec₁ : ∀ p, FS.find g₁ p = copySpec g (src ++ [name]) (dest ++ [name]) p := by
      rcases copyEntry_ok_cases hentry with ⟨hdir, hr⟩ | ⟨c, hfile, hr⟩
      · exact (hrecSpec _ _ g g₁ hwf hdir hincc hr).1
      · exact copyFile_entry_spec hwf hdest hr
    have hwf₁ : WF g₁ := by
      rcases copyEntry_ok_cases hentry with ⟨hdir, hr⟩ | ⟨c, hfile, hr⟩
      · exact hrecWF _ _ g g₁ hwf hr
      · exact copyFile_ok_wf hwf (by simp) hr
    have hsrc₁ : FS.find g₁ src = some Node.dir := by
      have hss := hsrcstable []
      simp only [List.append_nil] at hss
      rw [hss]
      exact hsrc
    have hdest₁ : (FS.find g₁ dest).isSome := by
      rw [huntouched dest (pfx_not_concat_self dest name)]
      exact hdest
    have hchild₁ : ∀ s ∈ rest, (FS.find g₁ (src ++ [s])).isSome := by
      intro s hs
      rw [hsrcstable [s]]
      exact hchild s (List.mem_cons_of_mem _ hs)
    obtain ⟨hspecR, hncR⟩ := ih hwf₁ hsrc₁ hdest₁ hinc hnodupR hchild₁ hrest
    constructor
    · exact entriesSpec_cons_convert hwf hdest hname hconf₁ hsrcstable hspec₁ hspecR
    · intro s hs r c hdirg hfileg x
      rcases List.mem_cons.mp hs with hseq | hsR
      · subst hseq
        rcases copyEntry_ok_cases hentry with ⟨hdir, hr⟩ | ⟨c₀, hfile, hr⟩
        · exact (hrecSpec _ _ g g₁ hwf hdir hincc hr).2 r c hdirg hfileg x
        · exfalso
          cases r with
          | nil =>
            rw [List.append_nil, hfile] at hdirg
            cases hdirg
          | cons y ys =>
            have hbelow : FS.find g (src ++ [s] ++ y :: ys) = none := by
              refine hwf.below_file hfile (pfx_append _ _) ?_
              intro hc
              have := congrArg List.length hc
              simp at this
            rw [hbelow] at hdirg
            cases hdirg
      · have hnames : name ≠ s := fun hc => hname (hc ▸ hsR)
        have hsrc3 : ∀ (t : Path),
            FS.find g₁ (src ++ [s] ++ t) = FS.find g (src ++ [s] ++ t) := by
          intro t
          rw [List.append_assoc]
          exact hsrcstable ([s] ++ t)
        have hregion : ∀ q, pfx (dest ++ [s]) q → FS.find g₁ q = FS.find g q := by
          intro q hq
          apply huntouched
          intro hc
          exact hnames (pfx_single_unique hc hq)
        have h1 : FS.find g₁ (src ++ [s] ++ r) = some Node.dir := by
          rw [hsrc3 r]
          exact hdirg
        have h2 : FS.find g₁ (dest ++ [s] ++ r) = some (Node.file c) := by
          rw [hregion (dest ++ [s] ++ r) (pfx_append _ r)]
          exact hfileg
        have hout := hncR s hsR r c h1 h2 x
        have hconv : FS.find g₁ (src ++ [s] ++ r ++ [x])
            = FS.find g (src ++ [s] ++ r ++ [x]) := by
          rw [List.append_assoc, List.append_assoc]
          exact hsrcstable ([s] ++ (r ++ [x]))
        rw [hconv] at hout
        exact hout

theorem drop_append_self (l t : Path) : (l ++ t).drop l.length = t := by simp

theorem take_append_self (l t : Path) : (l ++ t).take l.length = l := by simp

/-- Pointwise description of every successful `copyRecursive src dest` run
from a well-formed state with a present source directory and incomparable
source and destination: the final state is `copySpec` of the initial state,
and the initial state satisfies `NoClash` (a nonempty source directory never
faces a destination file). -/
theorem copyRecursive_spec (enum : FS → Path → List String) (hv : ValidEnum enum) :
    ∀ (fuel : Nat) {src dest : Path} {fs fs' : FS},
    WF fs → FS.find fs src = some Node.dir → Incomp src dest →
    copyRecursive enum fuel src dest fs = .ok fs' →
    (∀ p, FS.find fs' p = copySpec fs src dest p) ∧ NoClash fs src dest := by
  intro fuel
  induction fuel with
  | zero =>
    intro src dest fs fs' hwf hsrc hinc h
    rw [copyRecursive_zero] at h
    simp at h
  | succ fuel ih =>
    intro src dest fs fs' hwf hsrc hinc h
    obtain ⟨g, hphase, hsrcg, hloop⟩ := copyRecursive_succ_ok h
    have hdne : dest ≠ [] := fun hc => hinc.2 (hc ▸ pfx_nil src)
    have hsne : src ≠ [] := fun hc => hinc.1 (hc ▸ pfx_nil dest)
    -- facts about the state after the mkdir phase
    have hgsrc : ∀ r, FS.find g (src ++ r) = FS.find fs (src ++ r) := by
      intro r
      by_cases hd0 : FS.find fs dest = none
      · rw [if_pos hd0] at hphase
        have hc := mkdirAux_confined fs dest dest.length (Nat.le_refl _)
        rw [show (mkdirAux fs dest dest.length) = mkdirRec fs dest from rfl, hphase] at hc
        exact Confined.src_stable hc hinc r
      · rw [if_neg hd0] at hphase
        simp only [Res.ok.injEq] at hphase
        rw [← hphase]
    have hgsub : ∀ q, pfx dest q → q ≠ dest → FS.find g q = FS.find fs q := by
      intro q hq hqne
      by_cases hd0 : FS.find fs dest = none
      · rw [if_pos hd0] at hphase
        by_cases hch : FS.find g q = FS.find fs q
        · exact hch
        · exfalso
          have := mkdirAux_changes fs dest dest.length q (by
            rw [show (mkdirAux fs dest dest.length) = mkdirRec fs dest from rfl, hphase]
            exact hch)
          obtain ⟨-, -, j, hj1, hj2, hj3⟩ := this
          have : q = dest := pfx_antisymm (by rw [hj3]; exact take_pfx dest j) hq
          exact hqne this
      · rw [if_neg hd0] at hphase
        simp only [Res.ok.injEq] at hphase
        rw [← hphase]
    have hgpre : ∀ q, q ≠ [] → pfx q dest → q ≠ dest →
        FS.find g q = (match FS.find fs q with
          | some n => some n
          | none => some Node.dir) := by
      intro q hqnil hq hqne
      by_cases hd0 : FS.find fs dest = none
      · rw [if_pos hd0] at hphase
        cases hfsq : FS.find fs q with
        | some n =>
          by_cases hch : FS.find g q = FS.find fs q
          · rw [hch, hfsq]
          · exfalso
            have := mkdirAux_changes fs dest dest.length q (by
              rw [show (mkdirAux fs dest dest.length) = mkdirRec fs dest from rfl, hphase]
              exact hch)
            rw [this.1] at hfsq
            cases hfsq
        | none =>
          obtain ⟨hql, hqt⟩ := pfx_iff_take.mp hq
          have := mkdirAux_ok_chain (Nat.le_refl _) hphase q.length
            (by cases hq0 : q with
                | nil => exact absurd hq0 hqnil
                | cons a t => simp) hql
          rw [← hqt] at this
          rw [this]
      · rw [if_neg hd0] at hphase
        simp only [Res.ok.injEq] at hphase
        cases hfsq : FS.find fs q with
        | some n => rw [← hphase, hfsq]
        | none =>
          exfalso
          rcases Option.ne_none_iff_exists.mp hd0 with ⟨n, hn⟩
          have := hwf.pfx_dir hn.symm hq hqne hqnil
          rw [this] at hfsq
          cases hfsq
    have hgdest : FS.find g dest = (match FS.find fs dest with
        | some n => some n
        | none => some Node.dir) := by
      by_cases hd0 : FS.find fs dest = none
      · rw [if_pos hd0] at hphase
        rw [hd0]
        have := mkdirAux_ok_chain (Nat.le_refl _) hphase dest.length
          (by cases hq0 : dest with
              | nil => exact absurd hq0 hdne
              | cons a t => simp) (Nat.le_refl _)
        rw [List.take_length] at this
        rw [this]
      · rw [if_neg hd0] at hphase
        simp only [Res.ok.injEq] at hphase
        cases hfsq : FS.find fs dest with
        | some n => rw [← hphase, hfsq]
        | none => exact absurd hfsq hd0
    have hgdestSome : (FS.find g dest).isSome := by
      rw [hgdest]
      cases FS.find fs dest with
      | some n => rfl
      | none => rfl
    have hwfg : WF g := by
      by_cases hd0 : FS.find fs dest = none
      · rw [if_pos hd0] at hphase
        exact mkdirAux_ok_wf hwf (Nat.le_refl _) hphase
      · rw [if_neg hd0] at hphase
        simp only [Res.ok.injEq] at hphase
        rw [← hphase]
        exact hwf
    have hgfs_of_some : FS.find fs dest ≠ none → g = fs := by
      intro hd0
      rw [if_neg hd0] at hphase
      simp only [Res.ok.injEq] at hphase
      exact hphase.symm
    -- the loop specification
    have hchild : ∀ s ∈ enum g src, (FS.find g (src ++ [s])).isSome :=
      fun s hs => ((hv g src).2 s).mp hs
    obtain ⟨hspecE, hncE⟩ := copyEntries_spec
      (fun s d h h' hw hsd hi hr => ih hw hsd hi hr)
      (fun s d h => copyRecursive_confined enum fuel s d h)
      (fun s d h h' hw hr => copyRecursive_ok_wf enum fuel hw hr)
      (enum g src) hwfg hsrcg hgdestSome hinc (hv g src).1 hchild hloop
    -- when the destination is an existing regular file, the loop must be empty
    have hfile_empty : ∀ c, FS.find fs dest = some (Node.file c) → enum g src = [] := by
      intro c hfc
      have hgfs : g = fs := hgfs_of_some (by rw [hfc]; simp)
      cases hl : enum g src with
      | nil => rfl
      | cons s₀ rest₀ =>
        exfalso
        rw [hl, copyEntries_cons] at hloop
        obtain ⟨g₁, hentry, -⟩ := Res.ok_of_bind_ok hloop
        rcases copyEntry_ok_cases hentry with ⟨hdir, hr⟩ | ⟨c₀, hfile0, hr⟩
        · cases fuel with
          | zero => rw [copyRecursive_zero] at hr; simp at hr
          | succ fuel' =>
            obtain ⟨g', hphase', -, -⟩ := copyRecursive_succ_ok hr
            have hdnone : FS.find g (dest ++ [s₀]) = none := by
              rw [hgfs]
              refine hwf.below_file hfc (pfx_append _ _) ?_
              intro hc
              have := congrArg List.length hc
              simp at this
            rw [if_pos hdnone] at hphase'
            have := mkdirAux_ok_nofile (Nat.le_refl _) hphase' dest.length c
              (by cases hq0 : dest with
                  | nil => exact absurd hq0 hdne
                  | cons a t => simp)
              (by simp)
            rw [take_append_self] at this
            rw [hgfs] at this
            exact this hfc
        · obtain ⟨-, -, -, -, hpar⟩ := copyFile_ok hr
          rw [List.dropLast_concat] at hpar
          rcases hpar with h0 | h0
          · exact hdne h0
          · rw [hgfs, hfc] at h0
            cases h0
    refine ⟨?_, ?_⟩
    · -- the pointwise formula
      intro p
      rw [hspecE p]
      rcases hdrop : p.drop dest.length with _ | ⟨s, rs⟩
      · simp only [entriesSpec, hdrop]
        by_cases hpd : pfx dest p
        · have hp : p = dest := by
            have := eq_append_drop_of_pfx hpd
            rw [hdrop] at this
            simpa using this
          subst hp
          unfold copySpec
          rw [if_pos hpd, hdrop, List.append_nil, hsrc, hgdest]
          cases FS.find fs p with
          | none => rfl
          | some n => cases n <;> rfl
        · unfold copySpec
          rw [if_neg hpd]
          by_cases hpre : p ≠ [] ∧ pfx p dest
          · rw [if_pos hpre]
            have hpne : p ≠ dest := fun hc => hpd (hc ▸ pfx_refl dest)
            exact hgpre p hpre.1 hpre.2 hpne
          · rw [if_neg hpre]
            by_cases hch : FS.find g p = FS.find fs p
            · exact hch
            · exfalso
              by_cases hd0 : FS.find fs dest = none
              · rw [if_pos hd0] at hphase
                have := mkdirAux_changes fs dest dest.length p (by
                  rw [show (mkdirAux fs dest dest.length) = mkdirRec fs dest from rfl,
                    hphase]
                  exact hch)
                obtain ⟨-, -, j, hj1, hj2, hj3⟩ := this
                exact hpre ⟨by rw [hj3]; exact take_nonempty hj1 hj2,
                  by rw [hj3]; exact take_pfx dest j⟩
              · exact hch (by rw [hgfs_of_some hd0])
      · -- p is strictly inside the dest subtree at child s
        by_cases hpd : pfx dest p
        · have hp : p = dest ++ s :: rs := by
            have := eq_append_drop_of_pfx hpd
            rw [hdrop] at this
            exact this
          have hpds : pfx (dest ++ [s]) p := by
            refine ⟨rs, ?_⟩
            rw [hp]
            simp
          have hpne : p ≠ dest := by
            rw [hp]
            intro hc
            have := congrArg List.length hc
            simp at this
          by_cases hs : (FS.find fs (src ++ [s])).isSome
          · have hmem : s ∈ enum g src := ((hv g src).2 s).mpr (by
              rw [hgsrc [s]]
              exact hs)
            simp only [entriesSpec, hdrop]
            rw [if_pos ⟨hpd, hmem⟩]
            -- convert the child copySpec over g to the parent copySpec over fs
            have hdrop2 : p.drop (dest ++ [s]).length = rs := by
              rw [hp]
              have hsplit : dest ++ s :: rs = (dest ++ [s]) ++ rs := by simp
              rw [hsplit, drop_append_self]
            have epath : (src ++ [s]) ++ p.drop (dest ++ [s]).length
                = src ++ p.drop dest.length := by
              rw [hdrop, hdrop2]
              simp
            unfold copySpec
            rw [if_pos hpds, if_pos hpd, epath, hgsrc (p.drop dest.length),
              hgsub p hpd hpne]
          · have hnomem : s ∉ enum g src := fun hc => hs (by
              rw [← hgsrc [s]]
              exact ((hv g src).2 s).mp hc)
            simp only [entriesSpec, hdrop]
            rw [if_neg (fun hc => hnomem hc.2)]
            unfold copySpec
            rw [if_pos hpd, hdrop]
            have hnone : FS.find fs (src ++ s :: rs) = none := by
              cases hfs : FS.find fs (src ++ s :: rs) with
              | none => rfl
              | some n =>
                exfalso
                have h15 : pfx (src ++ [s]) (src ++ s :: rs) := ⟨rs, by simp⟩
                by_cases heq : src ++ [s] = src ++ s :: rs
                · rw [heq, hfs] at hs
                  simp at hs
                · have := hwf.pfx_dir hfs h15 heq (by simp)
                  rw [this] at hs
                  simp at hs
            rw [hnone]
            exact hgsub p hpd hpne
        · simp only [entriesSpec, hdrop]
          rw [if_neg (fun hc => hpd hc.1)]
          unfold copySpec
          rw [if_neg hpd]
          have hpre : ¬ (p ≠ [] ∧ pfx p dest) := by
            rintro ⟨-, hppd⟩
            have h1 := pfx_length_le hppd
            have h2 : dest.length < p.length := by
              have := congrArg List.length (eq_append_drop_of_pfx hppd).symm
              by_contra hcon
              have hle : p.length ≤ dest.length := by omega
              have hdl : p.drop dest.length = [] :=
                List.drop_eq_nil_of_le hle
              rw [hdl] at hdrop
              cases hdrop
            omega
          rw [if_neg hpre]
          by_cases hch : FS.find g p = FS.find fs p
          · exact hch
          · exfalso
            by_cases hd0 : FS.find fs dest = none
            · rw [if_pos hd0] at hphase
              have := mkdirAux_changes fs dest dest.length p (by
                rw [show (mkdirAux fs dest dest.length) = mkdirRec fs dest from rfl,
                  hphase]
                exact hch)
              obtain ⟨-, -, j, hj1, hj2, hj3⟩ := this
              exact hpre ⟨by rw [hj3]; exact take_nonempty hj1 hj2,
                by rw [hj3]; exact take_pfx dest j⟩
            · exact hch (by rw [hgfs_of_some hd0])
    · -- NoClash of the initial state
      intro r c hdirf hfilef x
      cases r with
      | nil =>
        rw [List.append_nil] at hfilef
        have hempty := hfile_empty c hfilef
        rw [List.append_nil]
        cases hfsx : FS.find fs (src ++ [x]) with
        | none => rfl
        | some n =>
          exfalso
          have hmem : x ∈ enum g src := ((hv g src).2 x).mpr (by
            rw [hgsrc [x], hfsx]
            rfl)
          rw [hempty] at hmem
          simp at hmem
      | cons s rs =>
        have hpresent : (FS.find fs (src ++ [s])).isSome := by
          have h15 : pfx (src ++ [s]) (src ++ s :: rs) := ⟨rs, by simp⟩
          by_cases heq : src ++ [s] = src ++ s :: rs
          · rw [heq, hdirf]
            rfl
          · rw [hwf.pfx_dir hdirf h15 heq (by simp)]
            rfl
        have hmem : s ∈ enum g src := ((hv g src).2 s).mpr (by
          rw [hgsrc [s]]
          exact hpresent)
        have hgfs : g = fs := by
          apply hgfs_of_some
          intro hd0
          have hdd : FS.find fs (dest ++ s :: rs) = some (Node.file c) := hfilef
          have : FS.find fs dest = some Node.dir := by
            refine hwf.pfx_dir hdd ⟨s :: rs, rfl⟩ ?_ hdne
            intro hc
            have := congrArg List.length hc
            simp at this
          rw [this] at hd0
          cases hd0
        have h1 : FS.find g (src ++ [s] ++ rs) = some Node.dir := by
          rw [hgfs, ← List.append_cons]
          exact hdirf
        have h2 : FS.find g (dest ++ [s] ++ rs) = some (Node.file c) := by
          rw [hgfs, ← List.append_cons]
          exact hfilef
        have hout := hncE s hmem rs c h1 h2 x
        rw [hgfs] at hout
        have hpath : src ++ s :: rs ++ [x] = src ++ [s] ++ rs ++ [x] := by simp
        rw [hpath]
        exact hout

theorem phase_ok_wf {fs : FS} {dest : Path} {g : FS} (hwf : WF fs)
    (hphase : (if FS.find fs dest = none then mkdirRec fs dest else .ok fs) = .ok g) :
    WF g := by
  by_cases hd0 : FS.find fs dest = none
  · rw [if_pos hd0] at hphase
    exact mkdirAux_ok_wf hwf (Nat.le_refl _) hphase
  · rw [if_neg hd0] at hphase
    simp only [Res.ok.injEq] at hphase
    rw [← hphase]
    exact hwf

theorem phase_ok_dest_isSome {fs : FS} {dest : Path} {g : FS} (hdne : dest ≠ [])
    (hphase : (if FS.find fs dest = none then mkdirRec fs dest else .ok fs) = .ok g) :
    (FS.find g dest).isSome := by
  by_cases hd0 : FS.find fs dest = none
  · rw [if_pos hd0] at hphase
    have := mkdirAux_ok_chain (Nat.le_refl _) hphase dest.length
      (by cases hq0 : dest with
          | nil => exact absurd hq0 hdne
          | cons a t => simp) (Nat.le_refl _)
    rw [List.take_length] at this
    rw [this]
    rfl
  · rw [if_neg hd0] at hphase
    simp only [Res.ok.injEq] at hphase
    rw [← hphase]
    cases hfsq : FS.find fs dest with
    | some n => rfl
    | none => exact absurd hfsq hd0

theorem phase_ok_proper_prefix_dir {fs : FS} {dest : Path} {g : FS} (hwf : WF fs)
    (hphase : (if FS.find fs dest = none then mkdirRec fs dest else .ok fs) = .ok g) :
    ∀ q, q ≠ [] → pfx q dest → q ≠ dest → FS.find g q = some Node.dir := by
  intro q hqnil hq hqne
  by_cases hd0 : FS.find fs dest = none
  · rw [if_pos hd0] at hphase
    obtain ⟨hql, hqt⟩ := pfx_iff_take.mp hq
    have := mkdirAux_ok_chain (Nat.le_refl _) hphase q.length
      (by cases hq0 : q with
          | nil => exact absurd hq0 hqnil
          | cons a t => simp) hql
    rw [← hqt] at this
    exact this
  · rw [if_neg hd0] at hphase
    simp only [Res.ok.injEq] at hphase
    rw [← hphase]
    rcases Option.ne_none_iff_exists.mp hd0 with ⟨n, hn⟩
    exact hwf.pfx_dir hn.symm hq hqne hqnil

/-- `copyRecursive` can never succeed when the destination lies strictly
inside the source subtree: the mkdir phase plants the first step of the
destination chain inside the source, the readdir loop then finds it and
recurses forever deeper (in the model: until the fuel runs out). -/
theorem copyRecursive_never_inside (enum : FS → Path → List String)
    (hv : ValidEnum enum) :
    ∀ (fuel : Nat), ∀ {src dest : Path} {fs fs' : FS}, WF fs → pfx src dest →
    src ≠ dest → copyRecursive enum fuel src dest fs ≠ .ok fs' := by
  intro fuel
  induction fuel with
  | zero =>
    intro src dest fs fs' hwf hp hne h
    rw [copyRecursive_zero] at h
    simp at h
  | succ fuel ih =>
    intro src dest fs fs' hwf hp hne h
    obtain ⟨g, hphase, hsrcg, hloop⟩ := copyRecursive_succ_ok h
    obtain ⟨t, ht⟩ := hp
    cases t with
    | nil => exact hne (by rw [← ht]; simp)
    | cons d₀ ds =>
      subst ht
      have hgwf : WF g := phase_ok_wf hwf hphase
      have hd₀some : (FS.find g (src ++ [d₀])).isSome := by
        cases hds : ds with
        | nil =>
          have := phase_ok_dest_isSome (by simp) hphase
          rw [hds] at this
          simpa using this
        | cons e es =>
          have := phase_ok_proper_prefix_dir hwf hphase (src ++ [d₀])
            (by simp) ⟨ds, by simp⟩
            (by intro hc
                have := congrArg List.length hc
                rw [hds] at this
                simp at this)
          rw [this]
          rfl
      have hmem : d₀ ∈ enum g src := ((hv g src).2 d₀).mpr hd₀some
      obtain ⟨l₁, l₂, hl⟩ := List.append_of_mem hmem
      rw [hl, copyEntries_append] at hloop
      obtain ⟨g₂, hl₁, hl₂⟩ := Res.ok_of_bind_ok hloop
      rw [copyEntries_cons] at hl₂
      obtain ⟨g₃, hentry, -⟩ := Res.ok_of_bind_ok hl₂
      have hwf₂ : WF g₂ :=
        copyEntries_ok_wf (fun s d h g' hw hr => copyRecursive_ok_wf enum fuel hw hr)
          hgwf hl₁
      have hdirp : dirPres g g₂ := by
        have := copyEntries_dirPres src (src ++ d₀ :: ds)
          (fun s d h => copyRecursive_dirPres enum fuel s d h) l₁ g
        rw [hl₁] at this
        exact this
      rcases copyEntry_ok_cases hentry with ⟨hdir, hr⟩ | ⟨c, hfile, hr⟩
      · refine ih hwf₂ ⟨ds ++ [d₀], by simp⟩ ?_ hr
        intro hc
        have := congrArg List.length hc
        simp at this
      · obtain ⟨-, -, -, -, hpar⟩ := copyFile_ok hr
        rw [List.dropLast_concat] at hpar
        rcases hpar with h0 | h0
        · simp at h0
        · cases hds : ds with
          | nil =>
            rw [hds] at h0
            have hfile' : FS.find g₂ (src ++ [d₀]) = some (Node.file c) := hfile
            rw [show src ++ d₀ :: ([] : List String) = src ++ [d₀] from rfl] at h0
            rw [h0] at hfile'
            cases hfile'
          | cons e es =>
            have hdir₀ : FS.find g (src ++ [d₀]) = some Node.dir := by
              refine phase_ok_proper_prefix_dir hwf hphase (src ++ [d₀])
                (by simp) ⟨ds, by simp⟩ ?_
              intro hc
              have := congrArg List.length hc
              rw [hds] at this
              simp at this
            have := hdirp (src ++ [d₀]) hdir₀
            rw [hfile] at this
            cases this

/-- `srcFits fs fuel p`: the directory nesting below `p` in `fs` is shallower
than `fuel`, the number of recursion levels the traversal may still enter. -/
def srcFits (fs : FS) : Nat → Path → Prop
  | 0, _ => False
  | fuel + 1, p =>
    ∀ s, FS.find fs (p ++ [s]) = some Node.dir → srcFits fs fuel (p ++ [s])

theorem srcFits_congr {fs₁ fs₂ : FS} :
    ∀ (fuel : Nat) (p : Path),
    (∀ r, FS.find fs₁ (p ++ r) = FS.find fs₂ (p ++ r)) →
    srcFits fs₁ fuel p → srcFits fs₂ fuel p := by
  intro fuel
  induction fuel with
  | zero => intro p h hf; exact hf
  | succ fuel ih =>
    intro p h hf s hs
    have h1 : FS.find fs₁ (p ++ [s]) = some Node.dir := by rw [h [s]]; exact hs
    refine ih (p ++ [s]) ?_ (hf s h1)
    intro r
    rw [List.append_assoc]
    exact h ([s] ++ r)

/-- A successful run certifies that the fuel covered the source's directory
depth. -/
theorem copyRecursive_ok_srcFits (enum : FS → Path → List String)
    (hv : ValidEnum enum) :
    ∀ (fuel : Nat), ∀ {src dest : Path} {fs fs' : FS}, Incomp src dest →
    copyRecursive enum fuel src dest fs = .ok fs' → srcFits fs fuel src := by
  intro fuel
  induction fuel with
  | zero =>
    intro src dest fs fs' hinc h
    rw [copyRecursive_zero] at h
    simp at h
  | succ fuel ih =>
    intro src dest fs fs' hinc h
    obtain ⟨g, hphase, hsrcg, hloop⟩ := copyRecursive_succ_ok h
    have hgconf : Confined fs g dest := by
      by_cases hd0 : FS.find fs dest = none
      · rw [if_pos hd0] at hphase
        have hc := mkdirAux_confined fs dest dest.length (Nat.le_refl _)
        rw [show (mkdirAux fs dest dest.length) = mkdirRec fs dest from rfl, hphase] at hc
        exact hc
      · rw [if_neg hd0] at hphase
        simp only [Res.ok.injEq] at hphase
        rw [← hphase]
        exact Confined_refl fs dest
    have hgsrc : ∀ r, FS.find g (src ++ r) = FS.find fs (src ++ r) :=
      fun r => Confined.src_stable hgconf hinc r
    intro s hs
    have hsg : FS.find g (src ++ [s]) = some Node.dir := by rw [hgsrc [s]]; exact hs
    have hmem : s ∈ enum g src := ((hv g src).2 s).mpr (by rw [hsg]; rfl)
    obtain ⟨l₁, l₂, hl⟩ := List.append_of_mem hmem
    rw [hl, copyEntries_append] at hloop
    obtain ⟨g₂, hl₁, hl₂⟩ := Res.ok_of_bind_ok hloop
    rw [copyEntries_cons] at hl₂
    obtain ⟨g₃, hentry, -⟩ := Res.ok_of_bind_ok hl₂
    have hconf₂ : Confined g g₂ dest := by
      have := copyEntries_confined src dest
        (fun a b c => copyRecursive_confined enum fuel a b c) l₁ g
      rw [hl₁] at this
      exact this
    have hg₂src : ∀ r, FS.find g₂ (src ++ r) = FS.find fs (src ++ r) :=
      fun r => (Confined.src_stable hconf₂ hinc r).trans (hgsrc r)
    have hsg₂ : FS.find g₂ (src ++ [s]) = some Node.dir := by rw [hg₂src [s]]; exact hs
    rcases copyEntry_ok_cases hentry with ⟨-, hr⟩ | ⟨c, hfile, hr⟩
    · have hfit := ih (incomp_extend hinc s) hr
      refine srcFits_congr fuel (src ++ [s]) ?_ hfit
      intro r
      rw [List.append_assoc]
      exact hg₂src ([s] ++ r)
    · rw [hsg₂] at hfile
      cases hfile

/-- `Mirror fs src dest`: the destination subtree already reflects the source
subtree — every present source path has the same node at the corresponding
destination path, except that a childless source directory may face a regular
file (the state a run leaves behind in that corner). -/
def Mirror (fs : FS) (src dest : Path) : Prop :=
  ∀ r, (FS.find fs (src ++ r)).isSome →
    (FS.find fs (dest ++ r) = FS.find fs (src ++ r) ∨
     (FS.find fs (src ++ r) = some Node.dir ∧
      (∀ s, FS.find fs (src ++ r ++ [s]) = none) ∧
      ∃ c, FS.find fs (dest ++ r) = some (Node.file c)))

theorem Mirror_child {fs : FS} {src dest : Path} (hm : Mirror fs src dest)
    (s : String) : Mirror fs (src ++ [s]) (dest ++ [s]) := by
  intro r hr
  have h1 : src ++ [s] ++ r = src ++ ([s] ++ r) := by rw [List.append_assoc]
  have h2 : dest ++ [s] ++ r = dest ++ ([s] ++ r) := by rw [List.append_assoc]
  rw [h1] at hr
  have := hm ([s] ++ r) hr
  rw [h1, h2]
  rcases this with hl | ⟨ha, hb, hc⟩
  · exact Or.inl hl
  · refine Or.inr ⟨ha, ?_, hc⟩
    intro x
    exact hb x

theorem Mirror_equiv {a b : FS} {src dest : Path} (he : FS.equiv a b)
    (hm : Mirror b src dest) : Mirror a src dest := by
  intro r hr
  rw [he] at hr
  rcases hm r hr with hl | ⟨ha, hb, c, hc⟩
  · exact Or.inl (by rw [he, he]; exact hl)
  · exact Or.inr ⟨by rw [he]; exact ha, fun s => by rw [he]; exact hb s,
      c, by rw [he]; exact hc⟩

theorem WF_equiv {a b : FS} (he : FS.equiv a b) (hwf : WF b) : WF a := by
  rw [WF_iff_ext]
  intro p n hp
  rw [he p] at hp
  obtain ⟨h1, h2⟩ := (WF_iff_ext b).mp hwf p n hp
  exact ⟨h1, fun i h0 hlt => by rw [he]; exact h2 i h0 hlt⟩

theorem Mirror_root {fs : FS} {src dest : Path} (hm : Mirror fs src dest)
    (hsrc : FS.find fs src = some Node.dir) :
    FS.find fs dest = some Node.dir ∨
    ((∀ s, FS.find fs (src ++ [s]) = none) ∧
     ∃ c, FS.find fs dest = some (Node.file c)) := by
  have := hm [] (by rw [List.append_nil, hsrc]; rfl)
  simp only [List.append_nil] at this
  rcases this with hl | ⟨-, hb, hc⟩
  · exact Or.inl (by rw [hl, hsrc])
  · exact Or.inr ⟨hb, hc⟩

/-- Running the copy over a destination that already mirrors the source
succeeds (given enough fuel for the source depth) and changes nothing,
extensionally: every copy overwrites a file with identical bytes, every mkdir
is skipped. -/
theorem copyRecursive_mirror (enum : FS → Path → List String)
    (hv : ValidEnum enum) :
    ∀ (fuel : Nat), ∀ {src dest : Path} {fs : FS}, WF fs →
    FS.find fs src = some Node.dir → Incomp src dest → Mirror fs src dest →
    srcFits fs fuel src →
    ∃ fs'', copyRecursive enum fuel src dest fs = .ok fs'' ∧ FS.equiv fs'' fs := by
  intro fuel
  induction fuel with
  | zero =>
    intro src dest fs hwf hsrc hinc hm hfit
    exact absurd hfit (by intro hc; exact hc)
  | succ fuel ih =>
    intro src dest fs hwf hsrc hinc hm hfit
    have hdest : FS.find fs dest ≠ none := by
      rcases Mirror_root hm hsrc with h1 | ⟨-, c, h2⟩
      · rw [h1]; simp
      · rw [h2]; simp
    have hloop : ∀ (l : List String) (h : FS), FS.equiv h fs →
        (∀ s ∈ l, (FS.find fs (src ++ [s])).isSome) →
        ∃ h', copyEntries (fun a b k => copyRecursive enum fuel a b k) src dest l h
          = .ok h' ∧ FS.equiv h' fs := by
      intro l
      induction l with
      | nil => intro h he hch; exact ⟨h, copyEntries_nil _ _ _ _, he⟩
      | cons s rest ihl =>
        intro h he hch
        have hs := hch s (List.mem_cons_self _ _)
        cases hnode : FS.find fs (src ++ [s]) with
        | none => rw [hnode] at hs; simp at hs
        | some n =>
          have hsh : FS.find h (src ++ [s]) = some n := by rw [he]; exact hnode
          cases n with
          | dir =>
            have hfit' : srcFits fs fuel (src ++ [s]) := hfit s hnode
            have hm' : Mirror fs (src ++ [s]) (dest ++ [s]) := Mirror_child hm s
            have hwfh : WF h := WF_equiv he hwf
            have hmh : Mirror h (src ++ [s]) (dest ++ [s]) := Mirror_equiv he hm'
            have hfh : srcFits h fuel (src ++ [s]) :=
              srcFits_congr fuel (src ++ [s]) (fun r => (he _).symm) hfit'
            obtain ⟨g₁, hg₁, heg₁⟩ := ih hwfh hsh (incomp_extend hinc s) hmh hfh
            obtain ⟨h', hh', heh'⟩ := ihl g₁ (FS.equiv_trans heg₁ he)
              (fun x hx => hch x (List.mem_cons_of_mem _ hx))
            refine ⟨h', ?_, heh'⟩
            rw [copyEntries_cons]
            have hentry : copyEntry (fun a b k => copyRecursive enum fuel a b k)
                src dest s h = .ok g₁ := by
              unfold copyEntry
              rw [hsh]
              exact hg₁
            rw [hentry, Res.bind_ok]
            exact hh'
          | file c =>
            have hdestfile : FS.find fs (dest ++ [s]) = some (Node.file c) := by
              rcases hm [s] (by rw [hnode]; rfl) with h1 | ⟨hd, -, -⟩
              · rw [h1, hnode]
              · rw [hnode] at hd; cases hd
            have hdestdir : FS.find fs dest = some Node.dir := by
              rcases Mirror_root hm hsrc with h1 | ⟨hcl, -⟩
              · exact h1
              · exfalso
                rw [hcl s] at hnode
                cases hnode
            have hcf : copyFile h (src ++ [s]) (dest ++ [s])
                = .ok (FS.set h (dest ++ [s]) (Node.file c)) := by
              simp only [copyFile, hsh]
              rw [if_neg (by rw [he, hdestfile]; simp)]
              have hcond : ((dest ++ [s]).dropLast = [] ∨
                  FS.find h ((dest ++ [s]).dropLast) = some Node.dir) := by
                right
                rw [List.dropLast_concat, he]
                exact hdestdir
              rw [if_pos hcond]
            have heq₁ : FS.equiv (FS.set h (dest ++ [s]) (Node.file c)) fs := by
              intro p
              rw [FS.find_set]
              by_cases hp : p = dest ++ [s]
              · rw [if_pos hp, hp, hdestfile]
              · rw [if_neg hp]
                exact he p
            obtain ⟨h', hh', heh'⟩ := ihl (FS.set h (dest ++ [s]) (Node.file c)) heq₁
              (fun x hx => hch x (List.mem_cons_of_mem _ hx))
            refine ⟨h', ?_, heh'⟩
            rw [copyEntries_cons]
            have hentry : copyEntry (fun a b k => copyRecursive enum fuel a b k)
                src dest s h = .ok (FS.set h (dest ++ [s]) (Node.file c)) := by
              unfold copyEntry
              rw [hsh]
              exact hcf
            rw [hentry, Res.bind_ok]
            exact hh'
    obtain ⟨fs'', hok, hee⟩ := hloop (enum fs src) fs (FS.equiv_refl fs)
      (fun s hs => ((hv fs src).2 s).mp hs)
    refine ⟨fs'', ?_, hee⟩
    rw [copyRecursive_succ, if_neg hdest, Res.bind_ok, hsrc]
    exact hok

theorem copySpec_outside {fs : FS} {src dest : Path} (hinc : Incomp src dest)
    (r : Path) : copySpec fs src dest (src ++ r) = FS.find fs (src ++ r) := by
  unfold copySpec
  rw [if_neg (incomp_subtree hinc r).1]
  rw [if_neg (by rintro ⟨-, hc⟩; exact (incomp_subtree hinc r).2 hc)]

theorem copySpec_dest_region (fs : FS) (src dest : Path) (r : Path) :
    copySpec fs src dest (dest ++ r) =
      match FS.find fs (src ++ r) with
      | some (Node.file c) => some (Node.file c)
      | some Node.dir =>
        match FS.find fs (dest ++ r) with
        | some (Node.file c) => some (Node.file c)
        | _ => some Node.dir
      | none => FS.find fs (dest ++ r) := by
  unfold copySpec
  rw [if_pos (pfx_append dest r), drop_append_self]

/-- Discharge the freshness side condition on a concrete state: it is enough
that no entry's key lies strictly below `dest`. -/
theorem fresh_of_keys (fs : FS) (dest : Path)
    (h : ∀ pr ∈ fs, ¬ (pfx dest pr.1 ∧ pr.1 ≠ dest)) :
    ∀ q, pfx dest q → q ≠ dest → FS.find fs q = none := by
  intro q hq hne
  cases hf : FS.find fs q with
  | none => rfl
  | some n =>
    obtain ⟨pr, hmem, hkey, -⟩ := FS.find_mem hf
    exact absurd ⟨hkey ▸ hq, hkey ▸ hne⟩ (h pr hmem)

/-! Concrete filesystem states used to instantiate the claim theorems and to
refute the claims that fail.  `fsExample` is an ordinary template tree;
`fsOverlap` nests the source under the destination (`src = d/t`, `dest = d`)
with an entry of the source named like the source directory itself, the
configuration on which enumeration order and idempotence break;
`fsOverlapPre` additionally pre-populates the destination file and reorders
the representation so the canonical enumeration meets the nested directory
first; `fsLoopClash` puts a directory at a destination path where a file is
to be copied; `fsDeep` is a plain source used with a three-level missing
destination. -/

def fsExample : FS :=
  [(["t"], Node.dir), (["t", "a"], Node.file [1]),
   (["t", "d"], Node.dir), (["t", "d", "b"], Node.file [2])]

def fsOverlap : FS :=
  [(["d"], Node.dir), (["d", "t"], Node.dir), (["d", "t", "a"], Node.file [1]),
   (["d", "t", "t"], Node.dir), (["d", "t", "t", "a"], Node.file [2])]

def fsOverlapPre : FS :=
  [(["d"], Node.dir), (["d", "t"], Node.dir), (["d", "t", "t"], Node.dir),
   (["d", "t", "t", "a"], Node.file [2]), (["d", "t", "a"], Node.file [1]),
   (["d", "a"], Node.file [9])]

def fsLoopClash : FS :=
  [(["t"], Node.dir), (["t", "a"], Node.file [1]), (["t", "b"], Node.file [2]),
   (["o"], Node.dir), (["o", "b"], Node.dir)]

def fsDeep : FS := [(["t"], Node.dir), (["t", "x"], Node.file [7])]

def fsPre : FS :=
  [(["t"], Node.dir), (["t", "a"], Node.file [1]),
   (["t", "d"], Node.dir), (["t", "d", "b"], Node.file [2]),
   (["o"], Node.dir), (["o", "a"], Node.file [9])]

/-- C1.  Structural fidelity of materialization: for every source tree and
every fresh (empty or non-existent) destination, a successful
`copyRecursive` leaves the destination a directory whose subtree equals the
source subtree pointwise — same relative paths, same node kinds, same file
bytes.  Freshness is `hdest`/`hfresh`; no relation between `src` and `dest`
is assumed: a destination strictly inside the source can never yield a
successful run (`copyRecursive_never_inside`), a destination above the source
contradicts freshness, and `dest = src` forces an empty source. -/
theorem claim1_structural_fidelity (enum : FS → Path → List String)
    (hv : ValidEnum enum) (fuel : Nat) {src dest : Path} {fs fs' : FS}
    (hwf : WF fs) (hsrc : FS.find fs src = some Node.dir)
    (hdest : FS.find fs dest = none ∨ FS.find fs dest = some Node.dir)
    (hfresh : ∀ q, pfx dest q → q ≠ dest → FS.find fs q = none)
    (h : copyRecursive enum fuel src dest fs = .ok fs') :
    FS.find fs' dest = some Node.dir ∧
    ∀ r, r ≠ [] → FS.find fs' (dest ++ r) = FS.find fs (src ++ r) := by
  by_cases hpd : pfx dest src
  · by_cases heq : dest = src
    · subst heq
      cases fuel with
      | zero => rw [copyRecursive_zero] at h; simp at h
      | succ fuel =>
        obtain ⟨g, hphase, hsrcg, hloop⟩ := copyRecursive_succ_ok h
        have hgd : ¬ FS.find fs dest = none := by rw [hsrc]; simp
        rw [if_neg hgd] at hphase
        simp only [Res.ok.injEq] at hphase
        subst hphase
        have hl : enum fs dest = [] := by
          rw [List.eq_nil_iff_forall_not_mem]
          intro s hs
          have hmem := ((hv fs dest).2 s).mp hs
          rw [hfresh (dest ++ [s]) (pfx_append _ _) (by simp)] at hmem
          simp at hmem
        rw [hl, copyEntries_nil] at hloop
        simp only [Res.ok.injEq] at hloop
        subst hloop
        exact ⟨hsrc, fun r hr => rfl⟩
    · have hnone := hfresh src hpd (fun hc => heq hc.symm)
      rw [hnone] at hsrc
      cases hsrc
  · by_cases hps : pfx src dest
    · exact absurd h (copyRecursive_never_inside enum hv fuel hwf hps
        (fun hc => hpd (hc ▸ pfx_refl dest)))
    · obtain ⟨hspec, -⟩ := copyRecursive_spec enum hv fuel hwf hsrc ⟨hps, hpd⟩ h
      constructor
      · rw [hspec dest]
        unfold copySpec
        rw [if_pos (pfx_refl dest), List.drop_length, List.append_nil, hsrc]
        rcases hdest with hd | hd
        · rw [hd]
        · rw [hd]
      · intro r hr
        rw [hspec (dest ++ r), copySpec_dest_region]
        have hfr : FS.find fs (dest ++ r) = none := by
          refine hfresh (dest ++ r) (pfx_append _ _) ?_
          intro hc
          have := congrArg List.length hc
          simp at this
          exact hr this
        cases hsr : FS.find fs (src ++ r) with
        | none => rw [hfr]
        | some n =>
          cases n with
          | dir => rw [hfr]
          | file c => rfl

/-- C2.  A non-existent destination, including one with several missing
ancestor directories, is created in full: after a successful run, every
nonempty ancestor of `dest` (and `dest` itself) exists as a directory.  The
creations happen in the mkdir phase, before any entry is copied, and
directories are never overwritten afterwards. -/
theorem claim2_dest_ancestors_created (enum : FS → Path → List String)
    (fuel : Nat) {src dest : Path} {fs fs' : FS}
    (hdest0 : FS.find fs dest = none)
    (h : copyRecursive enum fuel src dest fs = .ok fs') :
    ∀ i, 1 ≤ i → i ≤ dest.length → FS.find fs' (dest.take i) = some Node.dir := by
  cases fuel with
  | zero => rw [copyRecursive_zero] at h; simp at h
  | succ fuel =>
    obtain ⟨g, hphase, hsrcg, hloop⟩ := copyRecursive_succ_ok h
    rw [if_pos hdest0] at hphase
    intro i h1 h2
    have hg := mkdirAux_ok_chain (Nat.le_refl _) hphase i h1 h2
    have hdp : dirPres g fs' := by
      have := copyEntries_dirPres src dest
        (fun a b c => copyRecursive_dirPres enum fuel a b c) (enum g src) g
      rw [hloop] at this
      exact this
    exact hdp _ hg

/-- C3.  The entry point with no positional argument: `process.argv[2] || "."`
resolves the target to `"."`, the current working directory, so the
materialization runs with destination path `["."]`. -/
theorem claim3_default_target (enum : FS → Path → List String) (fuel : Nat)
    (dirname : Path) (fs : FS) :
    runMain enum fuel dirname none fs
      = copyRecursive enum fuel (dirname ++ ["template"]) ["."] fs := by
  unfold runMain
  rw [show parsePath (resolveTarget none) = ["."] from by decide]

/-- C4 (amended).  Re-running the materialization with the same fuel against
the destination a successful run produced raises no error and leaves the
filesystem extensionally unchanged — provided neither of source and
destination is an ancestor of the other (with overlapping paths the second
run can read back files the first run itself wrote, see
`claim4_counterexample`). -/
theorem claim4_rerun_idempotent (enum : FS → Path → List String)
    (hv : ValidEnum enum) (fuel : Nat) {src dest : Path} {fs fs' : FS}
    (hwf : WF fs) (hsrc : FS.find fs src = some Node.dir) (hinc : Incomp src dest)
    (h1 : copyRecursive enum fuel src dest fs = .ok fs') :
    copyRecursive enum fuel src dest fs'
      = .ok (Res.state (copyRecursive enum fuel src dest fs')) ∧
    FS.equiv (Res.state (copyRecursive enum fuel src dest fs')) fs' := by
  obtain ⟨hspec, hnc⟩ := copyRecursive_spec enum hv fuel hwf hsrc hinc h1
  have hstable : ∀ r, FS.find fs' (src ++ r) = FS.find fs (src ++ r) := by
    intro r
    rw [hspec (src ++ r), copySpec_outside hinc]
  have hwf' : WF fs' := copyRecursive_ok_wf enum fuel hwf h1
  have hsrc' : FS.find fs' src = some Node.dir := by
    have hss := hstable []
    simp only [List.append_nil] at hss
    rw [hss]
    exact hsrc
  have hfit : srcFits fs fuel src := copyRecursive_ok_srcFits enum hv fuel hinc h1
  have hfit' : srcFits fs' fuel src :=
    srcFits_congr fuel src (fun r => (hstable r).symm) hfit
  have hmir : Mirror fs' src dest := by
    intro r hr
    have hr' : (FS.find fs (src ++ r)).isSome := by rw [← hstable r]; exact hr
    rw [hspec (dest ++ r), copySpec_dest_region, hstable r]
    cases hsr : FS.find fs (src ++ r) with
    | none => rw [hsr] at hr'; simp at hr'
    | some n =>
      cases n with
      | file c => exact Or.inl rfl
      | dir =>
        cases hdr : FS.find fs (dest ++ r) with
        | none => exact Or.inl rfl
        | some m =>
          cases m with
          | dir => exact Or.inl rfl
          | file c =>
            refine Or.inr ⟨rfl, ?_, ⟨c, rfl⟩⟩
            intro s
            have hnone := hnc r c hsr hdr s
            have hassoc : src ++ r ++ [s] = src ++ (r ++ [s]) := by simp
            rw [hassoc] at hnone ⊢
            rw [hstable (r ++ [s])]
            exact hnone
  obtain ⟨fs'', h2, heq⟩ := copyRecursive_mirror enum hv fuel hwf' hsrc' hinc hmir hfit'
  rw [h2]
  exact ⟨rfl, heq⟩

/-- C5 (amended).  Overwrite semantics: when a destination file pre-exists at
a relative path where the source holds a file with different bytes, a
successful run replaces the destination file's content with the source's —
provided neither of source and destination is an ancestor of the other (with
overlapping paths the run can first overwrite the source file itself, see
`claim5_counterexample`). -/
theorem claim5_overwrite (enum : FS → Path → List String) (hv : ValidEnum enum)
    (fuel : Nat) {src dest : Path} {fs fs' : FS} {r : Path} {c c₀ : List Nat}
    (hwf : WF fs) (hsrc : FS.find fs src = some Node.dir) (hinc : Incomp src dest)
    (hsfile : FS.find fs (src ++ r) = some (Node.file c))
    (hdfile : FS.find fs (dest ++ r) = some (Node.file c₀)) (hne : c₀ ≠ c)
    (h : copyRecursive enum fuel src dest fs = .ok fs') :
    FS.find fs' (dest ++ r) = some (Node.file c) := by
  obtain ⟨hspec, -⟩ := copyRecursive_spec enum hv fuel hwf hsrc hinc h
  rw [hspec (dest ++ r), copySpec_dest_region, hsfile]

/-- C6.  Error propagation with no rollback: if the entries processed so far
succeeded and the next entry fails, the whole loop returns that same error —
the remaining entries never run, nothing is caught or retried — and every
path present before the failure (in particular everything already copied) is
still present in the failure state. -/
theorem claim6_error_propagation (enum : FS → Path → List String) (fuel : Nat)
    (src dest : Path) (l₁ l₂ : List String) (name : String) {fs g g' : FS}
    {e : FsErr}
    (h1 : copyEntries (fun a b c => copyRecursive enum fuel a b c) src dest l₁ fs
      = .ok g)
    (h2 : copyEntry (fun a b c => copyRecursive enum fuel a b c) src dest name g
      = .err e g') :
    copyEntries (fun a b c => copyRecursive enum fuel a b c) src dest
      (l₁ ++ name :: l₂) fs = .err e g' ∧
    (∀ p, (FS.find g p).isSome → (FS.find g' p).isSome) ∧
    (∀ p, (FS.find fs p).isSome → (FS.find g' p).isSome) := by
  have hpm1 : presMono fs g := by
    have := copyEntries_presMono src dest
      (fun a b c => copyRecursive_presMono enum fuel a b c) l₁ fs
    rw [h1] at this
    exact this
  have hpm2 : presMono g g' := by
    have := copyEntry_presMono src dest name g
      (fun a b c => copyRecursive_presMono enum fuel a b c)
    rw [h2] at this
    exact this
  refine ⟨?_, hpm2, presMono_trans hpm1 hpm2⟩
  rw [copyEntries_append, h1, Res.bind_ok, copyEntries_cons, h2, Res.bind_err]

/-- C7 (amended).  A missing or non-directory source aborts the run: no
successful result is possible, and whatever state the failure leaves is
confined to destination-side writes made before the failing step.  The one
exception, forced by `claim7_counterexample`, is the invocation whose
destination equals the missing source path: there the mkdir phase creates the
source itself and the run succeeds on the now empty directory. -/
theorem claim7_missing_source_aborts (enum : FS → Path → List String)
    (hv : ValidEnum enum) (fuel : Nat) {src dest : Path} {fs : FS}
    (hwf : WF fs) (hsrc : FS.find fs src ≠ some Node.dir)
    (hside : src ≠ dest ∨ (FS.find fs src).isSome) :
    (∀ g, copyRecursive enum fuel src dest fs ≠ .ok g) ∧
    Confined fs (Res.state (copyRecursive enum fuel src dest fs)) dest := by
  refine ⟨?_, copyRecursive_confined enum fuel src dest fs⟩
  intro g h
  by_cases hps : pfx src dest
  · by_cases heq : src = dest
    · subst heq
      have hsome : (FS.find fs src).isSome := by
        rcases hside with h0 | h0
        · exact absurd rfl h0
        · exact h0
      cases fuel with
      | zero => rw [copyRecursive_zero] at h; simp at h
      | succ fuel =>
        obtain ⟨g₁, hphase, hsrcg, -⟩ := copyRecursive_succ_ok h
        have hne : ¬ FS.find fs src = none := by
          intro hc
          rw [hc] at hsome
          simp at hsome
        rw [if_neg hne] at hphase
        simp only [Res.ok.injEq] at hphase
        subst hphase
        exact hsrc hsrcg
    · exact copyRecursive_never_inside enum hv fuel hwf hps heq h
  · cases fuel with
    | zero => rw [copyRecursive_zero] at h; simp at h
    | succ fuel =>
      obtain ⟨g₁, hphase, hsrcg, -⟩ := copyRecursive_succ_ok h
      have hstable : FS.find g₁ src = FS.find fs src := by
        by_cases hd0 : FS.find fs dest = none
        · rw [if_pos hd0] at hphase
          by_cases hch : FS.find g₁ src = FS.find fs src
          · exact hch
          · exfalso
            have := mkdirAux_changes fs dest dest.length src (by
              rw [show (mkdirAux fs dest dest.length) = mkdirRec fs dest from rfl,
                hphase]
              exact hch)
            obtain ⟨-, -, j, -, -, hj3⟩ := this
            exact hps (by rw [hj3]; exact take_pfx dest j)
        · rw [if_neg hd0] at hphase
          simp only [Res.ok.injEq] at hphase
          rw [← hphase]
      rw [hstable] at hsrcg
      exact hsrc hsrcg

/-- C8 (amended).  Order insensitivity: two successful runs that enumerate
each directory's entries in different (valid) orders — and may even use
different fuel — produce extensionally the same final state, provided neither
of source and destination is an ancestor of the other (with overlapping paths
the order is observable, see `claim8_counterexample`). -/
theorem claim8_order_insensitive (enum₁ enum₂ : FS → Path → List String)
    (hv₁ : ValidEnum enum₁) (hv₂ : ValidEnum enum₂) (fuel₁ fuel₂ : Nat)
    {src dest : Path} {fs fs₁ fs₂ : FS}
    (hwf : WF fs) (hsrc : FS.find fs src = some Node.dir) (hinc : Incomp src dest)
    (h₁ : copyRecursive enum₁ fuel₁ src dest fs = .ok fs₁)
    (h₂ : copyRecursive enum₂ fuel₂ src dest fs = .ok fs₂) :
    FS.equiv fs₁ fs₂ := by
  obtain ⟨hs₁, -⟩ := copyRecursive_spec enum₁ hv₁ fuel₁ hwf hsrc hinc h₁
  obtain ⟨hs₂, -⟩ := copyRecursive_spec enum₂ hv₂ fuel₂ hwf hsrc hinc h₂
  intro p
  rw [hs₁ p, hs₂ p]

/-- C9 (amended).  The source tree is never mutated and all writes are
destination-side, provided neither of source and destination is an ancestor
of the other: whether the run succeeds or fails, every path of the source
subtree is unchanged, and any changed path is at or below the destination or
a previously missing ancestor of the destination created as a directory
(with the destination inside the source the very first mkdir writes into the
source subtree, see `claim9_counterexample`). -/
theorem claim9_source_not_mutated (enum : FS → Path → List String) (fuel : Nat)
    {src dest : Path} (fs : FS) (hinc : Incomp src dest) :
    (∀ r, FS.find (Res.state (copyRecursive enum fuel src dest fs)) (src ++ r)
        = FS.find fs (src ++ r)) ∧
    (∀ p, FS.find (Res.state (copyRecursive enum fuel src dest fs)) p
        ≠ FS.find fs p →
      pfx dest p ∨ (p ≠ [] ∧ pfx p dest ∧ FS.find fs p = none ∧
        FS.find (Res.state (copyRecursive enum fuel src dest fs)) p
          = some Node.dir)) := by
  have hc := copyRecursive_confined enum fuel src dest fs
  refine ⟨fun r => Confined.src_stable hc hinc r, fun p hp => ?_⟩
  rcases hc p with he | hd | h3
  · exact absurd he hp
  · exact Or.inl hd
  · exact Or.inr h3

/-- C10.  The destination is created before the source is first read: with a
missing source (not an ancestor of the destination) and a missing,
creatable destination, the run performs the recursive mkdir first and only
then fails with `ENOENT` at `readdirSync`, leaving the freshly created empty
destination directory on disk. -/
theorem claim10_dest_created_before_read (enum : FS → Path → List String)
    (fuel : Nat) {src dest : Path} {fs g : FS}
    (hsrc : FS.find fs src = none) (hdest0 : FS.find fs dest = none)
    (hdne : dest ≠ []) (hnp : ¬ pfx src dest)
    (hmk : mkdirRec fs dest = .ok g) :
    copyRecursive enum (fuel + 1) src dest fs = .err FsErr.enoent g ∧
    FS.find g dest = some Node.dir := by
  have hgsrc : FS.find g src = none := by
    by_cases hch : FS.find g src = FS.find fs src
    · rw [hch]
      exact hsrc
    · exfalso
      have := mkdirAux_changes fs dest dest.length src (by
        rw [show (mkdirAux fs dest dest.length) = mkdirRec fs dest from rfl, hmk]
        exact hch)
      obtain ⟨-, -, j, -, -, hj3⟩ := this
      exact hnp (by rw [hj3]; exact take_pfx dest j)
  constructor
  · rw [copyRecursive_succ, if_pos hdest0, hmk, Res.bind_ok, hgsrc]
  · have := mkdirAux_ok_chain (Nat.le_refl _) hmk dest.length
      (by cases hq0 : dest with
          | nil => exact absurd hq0 hdne
          | cons a t => simp) (Nat.le_refl _)
    rw [List.take_length] at this
    exact this

def run4one : Res := copyRecursive readdir 3 ["d", "t"] ["d"] fsOverlap

def run4two : Res := copyRecursive readdir 3 ["d", "t"] ["d"] run4one.state

/-- C4 counterexample: with the source `d/t` nested inside the destination
`d` and a source entry named `t`, both runs succeed but the second run copies
back a file the first run overwrote inside the source, so the state after
running twice differs (at `d/a`) from the state after running once. -/
theorem claim4_counterexample :
    WF fsOverlap ∧
    run4one = .ok run4one.state ∧ run4two = .ok run4two.state ∧
    FS.find run4one.state ["d", "a"] = some (Node.file [1]) ∧
    FS.find run4two.state ["d", "a"] = some (Node.file [2]) :=
  ⟨by decide, by decide, by decide, by decide, by decide⟩

def run5 : Res := copyRecursive readdir 3 ["d", "t"] ["d"] fsOverlapPre

/-- C5 counterexample: destination `d` is pre-populated with `d/a` (bytes 9)
differing from the source file `d/t/a` (bytes 1); the run succeeds, but
because the enumeration meets the nested directory `t` first, the source file
is overwritten (with bytes 2) before it is read, and `d/a` ends with bytes 2,
not the source's bytes 1 as the claim requires. -/
theorem claim5_counterexample :
    WF fsOverlapPre ∧
    FS.find fsOverlapPre ["d", "t", "a"] = some (Node.file [1]) ∧
    FS.find fsOverlapPre ["d", "a"] = some (Node.file [9]) ∧
    run5 = .ok run5.state ∧
    FS.find run5.state ["d", "a"] = some (Node.file [2]) :=
  ⟨by decide, by decide, by decide, by decide, by decide⟩

/-- C7 counterexample: invoked with the destination equal to the missing
source path, the run does not abort — the mkdir phase creates the source
itself, `readdirSync` then lists an empty directory, and the run reports
success. -/
theorem claim7_counterexample :
    FS.find ([] : FS) ["t"] = none ∧
    copyRecursive readdir 2 ["t"] ["t"] ([] : FS) = .ok [(["t"], Node.dir)] :=
  ⟨by decide, by decide⟩

def run8a : Res := copyRecursive readdir 3 ["d", "t"] ["d"] fsOverlap

def run8b : Res := copyRecursive revEnum 3 ["d", "t"] ["d"] fsOverlap

/-- C8 counterexample: two valid enumeration orders of the same overlapping
state (source `d/t` inside destination `d`, with a source entry named `t`)
both succeed yet produce different final states: `d/a` receives the original
source bytes under one order and the overwritten bytes under the other. -/
theorem claim8_counterexample :
    ValidEnum readdir ∧ ValidEnum revEnum ∧ WF fsOverlap ∧
    run8a = .ok run8a.state ∧ run8b = .ok run8b.state ∧
    FS.find run8a.state ["d", "a"] = some (Node.file [1]) ∧
    FS.find run8b.state ["d", "a"] = some (Node.file [2]) :=
  ⟨readdir_valid, revEnum_valid, by decide, by decide, by decide, by decide,
   by decide⟩

def fsInside : FS := [(["t"], Node.dir)]

def run9 : Res := copyRecursive readdir 2 ["t"] ["t", "s"] fsInside

/-- C9 counterexample: with the destination `t/s` inside the source `t`, the
invocation writes into the source subtree — after the operation (which fails,
in the model by fuel exhaustion standing for the source's unbounded
recursion) the path `t/s` under the source holds a directory that was not
there before. -/
theorem claim9_counterexample :
    pfx ["t"] ["t", "s"] ∧
    FS.find fsInside ["t", "s"] = none ∧
    FS.find run9.state ["t", "s"] = some Node.dir :=
  ⟨by decide, by decide, by decide⟩

/-- C1 instance: copying `fsExample`'s tree `t` into the fresh destination
`o` succeeds and reproduces the subtree exactly. -/
theorem claim1_witness :
    (WF fsExample ∧ FS.find fsExample ["t"] = some Node.dir ∧
     (FS.find fsExample ["o"] = none ∨ FS.find fsExample ["o"] = some Node.dir)) ∧
    (FS.find (Res.state (copyRecursive readdir 3 ["t"] ["o"] fsExample)) ["o"]
        = some Node.dir ∧
     ∀ r, r ≠ [] →
       FS.find (Res.state (copyRecursive readdir 3 ["t"] ["o"] fsExample))
         (["o"] ++ r) = FS.find fsExample (["t"] ++ r)) :=
  ⟨⟨by decide, by decide, by decide⟩,
   @claim1_structural_fidelity readdir readdir_valid 3 ["t"] ["o"] fsExample
     (Res.state (copyRecursive readdir 3 ["t"] ["o"] fsExample)) (by decide)
     (by decide) (by decide) (fresh_of_keys fsExample ["o"] (by decide))
     (by decide)⟩

/-- C2 instance: destination `a/b/c` with no ancestor existing; after the run
all of `a`, `a/b` and `a/b/c` are directories. -/
theorem claim2_witness :
    FS.find fsDeep ["a", "b", "c"] = none ∧
    ∀ i, 1 ≤ i → i ≤ (["a", "b", "c"] : Path).length →
      FS.find (Res.state (copyRecursive readdir 2 ["t"] ["a", "b", "c"] fsDeep))
        ((["a", "b", "c"] : Path).take i) = some Node.dir :=
  ⟨by decide,
   @claim2_dest_ancestors_created readdir 2 ["t"] ["a", "b", "c"] fsDeep
     (Res.state (copyRecursive readdir 2 ["t"] ["a", "b", "c"] fsDeep))
     (by decide) (by decide)⟩

/-- C4 instance (amended claim): on the disjoint configuration the re-run
succeeds and is extensionally a no-op. -/
theorem claim4_witness :
    (WF fsExample ∧ Incomp ["t"] ["o"] ∧
     copyRecursive readdir 3 ["t"] ["o"] fsExample
       = .ok (Res.state (copyRecursive readdir 3 ["t"] ["o"] fsExample))) ∧
    (copyRecursive readdir 3 ["t"] ["o"]
        (Res.state (copyRecursive readdir 3 ["t"] ["o"] fsExample))
      = .ok (Res.state (copyRecursive readdir 3 ["t"] ["o"]
          (Res.state (copyRecursive readdir 3 ["t"] ["o"] fsExample)))) ∧
     FS.equiv (Res.state (copyRecursive readdir 3 ["t"] ["o"]
         (Res.state (copyRecursive readdir 3 ["t"] ["o"] fsExample))))
       (Res.state (copyRecursive readdir 3 ["t"] ["o"] fsExample))) :=
  ⟨⟨by decide, by decide, by decide⟩,
   @claim4_rerun_idempotent readdir readdir_valid 3 ["t"] ["o"] fsExample
     (Res.state (copyRecursive readdir 3 ["t"] ["o"] fsExample)) (by decide)
     (by decide) (by decide) (by decide)⟩

/-- C5 instance (amended claim): the pre-populated differing file `o/a` is
replaced by the source bytes. -/
theorem claim5_witness :
    (WF fsPre ∧ FS.find fsPre (["t"] ++ ["a"]) = some (Node.file [1]) ∧
     FS.find fsPre (["o"] ++ ["a"]) = some (Node.file [9])) ∧
    FS.find (Res.state (copyRecursive readdir 3 ["t"] ["o"] fsPre)) (["o"] ++ ["a"])
      = some (Node.file [1]) :=
  ⟨⟨by decide, by decide, by decide⟩,
   @claim5_overwrite readdir readdir_valid 3 ["t"] ["o"] fsPre
     (Res.state (copyRecursive readdir 3 ["t"] ["o"] fsPre)) ["a"] [1] [9]
     (by decide) (by decide) (by decide) (by decide) (by decide) (by decide)
     (by decide)⟩

def loopState : FS :=
  Res.state (copyEntries (fun a b c => copyRecursive readdir 1 a b c) ["t"] ["o"]
    ["a"] fsLoopClash)

def entryState : FS :=
  Res.state (copyEntry (fun a b c => copyRecursive readdir 1 a b c) ["t"] ["o"] "b"
    loopState)

/-- C6 instance: copying `t/a` succeeds, copying `t/b` onto the directory
`o/b` fails with `EISDIR`; the loop over `a, b` returns that error and the
already copied `o/a` is still present. -/
theorem claim6_witness :
    (copyEntries (fun a b c => copyRecursive readdir 1 a b c) ["t"] ["o"] ["a"]
        fsLoopClash = .ok loopState ∧
     copyEntry (fun a b c => copyRecursive readdir 1 a b c) ["t"] ["o"] "b"
        loopState = .err FsErr.eisdir entryState) ∧
    (copyEntries (fun a b c => copyRecursive readdir 1 a b c) ["t"] ["o"]
        (["a"] ++ "b" :: []) fsLoopClash = .err FsErr.eisdir entryState ∧
     (∀ p, (FS.find loopState p).isSome → (FS.find entryState p).isSome) ∧
     (∀ p, (FS.find fsLoopClash p).isSome → (FS.find entryState p).isSome)) :=
  ⟨⟨by decide, by decide⟩,
   @claim6_error_propagation readdir 1 ["t"] ["o"] ["a"] [] "b" fsLoopClash
     loopState entryState FsErr.eisdir (by decide) (by decide)⟩

def fsNoSrc : FS := [(["x"], Node.file [1])]

/-- C7 instance (amended claim): source `t` missing, destination `o` distinct
from it — no run can succeed, and the failure state is confined to
destination-side writes. -/
theorem claim7_witness :
    (WF fsNoSrc ∧ ¬ FS.find fsNoSrc ["t"] = some Node.dir ∧
     (["t"] : Path) ≠ ["o"]) ∧
    ((∀ g, copyRecursive readdir 2 ["t"] ["o"] fsNoSrc ≠ .ok g) ∧
     Confined fsNoSrc (Res.state (copyRecursive readdir 2 ["t"] ["o"] fsNoSrc))
       ["o"]) :=
  ⟨⟨by decide, by decide, by decide⟩,
   @claim7_missing_source_aborts readdir readdir_valid 2 ["t"] ["o"] fsNoSrc
     (by decide) (by decide) (Or.inl (by decide))⟩

/-- C8 instance (amended claim): the canonical and the reversed enumeration
of the disjoint configuration produce extensionally the same state. -/
theorem claim8_witness :
    (WF fsExample ∧ Incomp ["t"] ["o"] ∧
     copyRecursive readdir 3 ["t"] ["o"] fsExample
       = .ok (Res.state (copyRecursive readdir 3 ["t"] ["o"] fsExample)) ∧
     copyRecursive revEnum 3 ["t"] ["o"] fsExample
       = .ok (Res.state (copyRecursive revEnum 3 ["t"] ["o"] fsExample))) ∧
    FS.equiv (Res.state (copyRecursive readdir 3 ["t"] ["o"] fsExample))
      (Res.state (copyRecursive revEnum 3 ["t"] ["o"] fsExample)) :=
  ⟨⟨by decide, by decide, by decide, by decide⟩,
   @claim8_order_insensitive readdir revEnum readdir_valid revEnum_valid 3 3
     ["t"] ["o"] fsExample
     (Res.state (copyRecursive readdir 3 ["t"] ["o"] fsExample))
     (Res.state (copyRecursive revEnum 3 ["t"] ["o"] fsExample))
     (by decide) (by decide) (by decide) (by decide) (by decide)⟩

/-- C9 instance (amended claim): on the disjoint configuration the source
subtree is untouched and all changes are destination-side. -/
theorem claim9_witness :
    Incomp ["t"] ["o"] ∧
    ((∀ r, FS.find (Res.state (copyRecursive readdir 3 ["t"] ["o"] fsExample))
        (["t"] ++ r) = FS.find fsExample (["t"] ++ r)) ∧
     (∀ p, FS.find (Res.state (copyRecursive readdir 3 ["t"] ["o"] fsExample)) p
         ≠ FS.find fsExample p →
       pfx ["o"] p ∨ (p ≠ [] ∧ pfx p ["o"] ∧ FS.find fsExample p = none ∧
         FS.find (Res.state (copyRecursive readdir 3 ["t"] ["o"] fsExample)) p
           = some Node.dir))) :=
  ⟨by decide,
   @claim9_source_not_mutated readdir 3 ["t"] ["o"] fsExample (by decide)⟩

/-- C10 instance: empty filesystem, source `t` missing, destination `o`
absent — the run creates `o` and then fails with `ENOENT`, leaving the empty
directory behind. -/
theorem claim10_witness :
    (FS.find ([] : FS) ["t"] = none ∧ FS.find ([] : FS) ["o"] = none ∧
     mkdirRec ([] : FS) ["o"] = .ok [(["o"], Node.dir)]) ∧
    (copyRecursive readdir 1 ["t"] ["o"] ([] : FS)
       = .err FsErr.enoent [(["o"], Node.dir)] ∧
     FS.find [(["o"], Node.dir)] ["o"] = some Node.dir) :=
  ⟨⟨by decide, by decide, by decide⟩,
   @claim10_dest_created_before_read readdir 0 ["t"] ["o"] ([] : FS)
     [(["o"], Node.dir)] (by decide) (by decide) (by decide) (by decide)
     (by decide)⟩

end CopyTree
